import Mathlib

set_option maxRecDepth 1000000

/-!
Verification development for the taguchi experiment-design library.

The definitions below are a shallow embedding of the C sources:
  * `src/lib/arrays.c`    — stored orthogonal-array tables, the GF(p) array
    generator `generate_power_oa`, the lazily built catalog `all_arrays`,
    `columns_needed_for_factor`, `total_columns_needed`, `get_array`, and
    the array selector `suggest_optimal_array`;
  * `src/lib/generator.c` — `check_array_compatibility` and
    `generate_experiments` (column assignment, paired-column decoding);
  * `src/lib/analyzer.c`  — result sets, `add_result`,
    `get_response_for_run`, `calculate_main_effects`,
    `recommend_optimal_levels`;
  * `src/lib/parser.c` / `src/lib/taguchi.c` — `validate_experiment_def`
    and the parameter checks of `taguchi_add_factor`.

Machine integers in the sources are modelled by `Nat` (all the quantities
involved are small and non-negative; `int` overflow is unreachable because
every combined index is below `base ^ cols ≤ 3125`), `double` responses by
`ℚ` (the analyzer only adds and divides; on the inputs considered all
values are exactly representable in both), and fallible functions by
`Option` / `Except`.
-/

namespace Taguchi

/-! ### Configuration constants (src/config.h) -/

def MAX_FACTORS : Nat := 256
def MAX_LEVELS : Nat := 27
def MAX_FACTOR_NAME : Nat := 64
def MAX_LEVEL_VALUE : Nat := 128

/-! ### Stored array tables (src/lib/arrays.c, L4_data .. L16_data) -/

def L4_data : List Nat :=
  [0, 0, 0,
   0, 1, 1,
   1, 0, 1,
   1, 1, 0]

def L8_data : List Nat :=
  [0, 0, 0, 0, 0, 0, 0,
   0, 0, 0, 1, 1, 1, 1,
   0, 1, 1, 0, 0, 1, 1,
   0, 1, 1, 1, 1, 0, 0,
   1, 0, 1, 0, 1, 0, 1,
   1, 0, 1, 1, 0, 1, 0,
   1, 1, 0, 0, 1, 1, 0,
   1, 1, 0, 1, 0, 0, 1]

def L9_data : List Nat :=
  [0, 0, 0, 0,
   0, 1, 1, 1,
   0, 2, 2, 2,
   1, 0, 1, 2,
   1, 1, 2, 0,
   1, 2, 0, 1,
   2, 0, 2, 1,
   2, 1, 0, 2,
   2, 2, 1, 0]

def L16_data : List Nat :=
  [0, 0, 0, 0, 0, 0, 0, 0, 0, 0, 0, 0, 0, 0, 0,
   0, 0, 0, 0, 0, 0, 0, 1, 1, 1, 1, 1, 1, 1, 1,
   0, 0, 0, 1, 1, 1, 1, 0, 0, 0, 0, 1, 1, 1, 1,
   0, 0, 0, 1, 1, 1, 1, 1, 1, 1, 1, 0, 0, 0, 0,
   0, 1, 1, 0, 0, 1, 1, 0, 0, 1, 1, 0, 0, 1, 1,
   0, 1, 1, 0, 0, 1, 1, 1, 1, 0, 0, 1, 1, 0, 0,
   0, 1, 1, 1, 1, 0, 0, 0, 0, 1, 1, 1, 1, 0, 0,
   0, 1, 1, 1, 1, 0, 0, 1, 1, 0, 0, 0, 0, 1, 1,
   1, 0, 1, 0, 1, 0, 1, 0, 1, 0, 1, 0, 1, 0, 1,
   1, 0, 1, 0, 1, 0, 1, 1, 0, 1, 0, 1, 0, 1, 0,
   1, 0, 1, 1, 0, 1, 0, 0, 1, 0, 1, 1, 0, 1, 0,
   1, 0, 1, 1, 0, 1, 0, 1, 0, 1, 0, 0, 1, 0, 1,
   1, 1, 0, 0, 1, 1, 0, 0, 1, 1, 0, 0, 1, 1, 0,
   1, 1, 0, 0, 1, 1, 0, 1, 0, 0, 1, 1, 0, 0, 1,
   1, 1, 0, 1, 0, 0, 1, 0, 1, 1, 0, 1, 0, 0, 1,
   1, 1, 0, 1, 0, 0, 1, 1, 0, 0, 1, 0, 1, 1, 0]

/-! ### The GF(p) array generator (src/lib/arrays.c, generate_power_oa)

The C code decodes an index into an n-digit base-p tuple by filling
`vec[k]` for `k = n-1` down to `0` with `tmp % p`, `tmp /= p`; after
`n-1-k` divisions `tmp = r / p^(n-1-k)`, so `vec[k] = r / p^(n-1-k) % p`
(big-endian digits). -/

def digitsList (p n r : Nat) : List Nat :=
  (List.range n).map (fun k => r / p ^ (n - 1 - k) % p)

/-- `is_canonical` from arrays.c: the first non-zero component equals 1;
the zero vector is not canonical. -/
def is_canonical : List Nat → Bool
  | [] => false
  | x :: xs => if x ≠ 0 then x == 1 else is_canonical xs

def nonzero_count (v : List Nat) : Nat := (v.filter (fun x => x != 0)).length

/-- Unit vector `e_i` of length `n` (phase 1 of the column-vector layout). -/
def unitVec (n i : Nat) : List Nat :=
  (List.range n).map (fun k => if k = i then 1 else 0)

/-- The canonical column-vector list of `generate_power_oa`: the `n` unit
vectors first, then the remaining canonical vectors (those with at least
two non-zero entries) in ascending order of their base-p value `v`, for
`v` from 1 to `p^n - 1`. -/
def colVectors (p n : Nat) : List (List Nat) :=
  (List.range n).map (unitVec n)
    ++ ((List.range (p ^ n - 1)).map (fun t => digitsList p n (t + 1))).filter
        (fun vec => is_canonical vec && decide (1 < nonzero_count vec))

/-- The inner accumulation `val += col_vectors[c][k] * x[k]` over `k < n`. -/
def dotProd (v x : List Nat) : Nat := (List.zipWith (fun a b => a * b) v x).sum

/-- Row-major data of the generated `L(p^n)` array:
`data[r * cols + c] = (Σ_k v_c[k]·x_r[k]) mod p`. -/
def generate_power_oa (p n : Nat) : List Nat :=
  ((List.range (p ^ n)).map
    (fun r => (colVectors p n).map (fun v => dotProd v (digitsList p n r) % p))).flatten

/-! ### The catalog (src/lib/arrays.c, static_arrays / ensure_arrays_initialized) -/

structure OrthogonalArray where
  name : String
  rows : Nat
  cols : Nat
  levels : Nat
  data : List Nat
deriving DecidableEq

/-- Catalog entry for a generated `L(p^n)` array: `rows = p^n`,
`cols = (p^n - 1) / (p - 1)`, `levels = p` (the values `generate_power_oa`
reports through `rows_out` / `cols_out`). -/
def genArray (name : String) (p n : Nat) : OrthogonalArray :=
  { name := name, rows := p ^ n, cols := (p ^ n - 1) / (p - 1), levels := p,
    data := generate_power_oa p n }

/-- `all_arrays` after `ensure_arrays_initialized`: the four stored tables,
then the generated GF(2), GF(3) and GF(5) series, in insertion order. -/
def all_arrays : List OrthogonalArray :=
  [ ⟨"L4", 4, 3, 2, L4_data⟩,
    ⟨"L8", 8, 7, 2, L8_data⟩,
    ⟨"L9", 9, 4, 3, L9_data⟩,
    ⟨"L16", 16, 15, 2, L16_data⟩,
    genArray "L32" 2 5, genArray "L64" 2 6, genArray "L128" 2 7,
    genArray "L256" 2 8, genArray "L512" 2 9, genArray "L1024" 2 10,
    genArray "L27" 3 3, genArray "L81" 3 4, genArray "L243" 3 5,
    genArray "L729" 3 6, genArray "L2187" 3 7,
    genArray "L25" 5 2, genArray "L125" 5 3, genArray "L625" 5 4,
    genArray "L3125" 5 5 ]

/-- Cell access `array->data[r * array->cols + c]`. -/
def oaCell (A : OrthogonalArray) (r c : Nat) : Nat :=
  A.data.getD (r * A.cols + c) 0

/-- `get_array`: linear scan of the catalog by exact name match. -/
def get_array (name : String) : Option OrthogonalArray :=
  all_arrays.find? (fun A => A.name == name)

/-! ### Experiment definitions (src/lib/parser.h) -/

structure Factor where
  name : String
  values : List String
deriving DecidableEq

/-- The C `Factor` stores `level_count` alongside the `values` array; in
the model the two are identified (the code always reads
`values[0 .. level_count)`). -/
def Factor.level_count (f : Factor) : Nat := f.values.length

structure ExperimentDef where
  factors : List Factor
  array_type : String
deriving DecidableEq

/-! ### Column-needs calculator (src/lib/arrays.c, columns_needed_for_factor)

The C `while (capacity < level_count)` loop is modelled with explicit
fuel; `fuel = level_count` always suffices because after `j` iterations
`capacity = base^j ≥ 2^j > j`, so the loop runs fewer than `level_count`
times. -/

def colsLoop (base level_count : Nat) : Nat → Nat → Nat → Nat
  | 0, _, cols => if cols = 0 then 1 else cols
  | fuel + 1, capacity, cols =>
    if capacity < level_count then colsLoop base level_count fuel (capacity * base) (cols + 1)
    else if cols = 0 then 1 else cols

def columns_needed_for_factor (level_count base_levels : Nat) : Nat :=
  if level_count ≤ 1 ∨ base_levels ≤ 1 then 1
  else colsLoop base_levels level_count level_count 1 0

def total_columns_needed (d : ExperimentDef) (base_levels : Nat) : Nat :=
  (d.factors.map (fun f => columns_needed_for_factor f.level_count base_levels)).sum

/-! ### Array selector (src/lib/arrays.c suggest_optimal_array and
src/lib/generator.c get_suggested_array_for_factors — the two functions
run the identical candidate scan; `selectArray` models it once) -/

/-- The running maximum of factor level counts, as computed by the C loop
(starting from 0). -/
def max_factor_levels (d : ExperimentDef) : Nat :=
  (d.factors.map (fun f => f.level_count)).foldl max 0

/-- `margin_pct = (cols >= needed) ? (cols - needed) * 100 / needed : 0`. -/
def margin_pct_of (cols needed : Nat) : Nat :=
  if needed ≤ cols then (cols - needed) * 100 / needed else 0

structure SelState where
  best_fit : Option OrthogonalArray
  smallest_fit : Option OrthogonalArray
  best_exact_match : Option OrthogonalArray
  smallest_fit_rows : Nat
  best_margin_pct : Nat
deriving DecidableEq

/-- One iteration of the candidate scan. -/
def selStep (d : ExperimentDef) (max_levels : Nat) (st : SelState)
    (A : OrthogonalArray) : SelState :=
  let needed := total_columns_needed d A.levels
  if A.cols < needed then st
  else
    let st1 :=
      if st.smallest_fit = none ∨ A.rows < st.smallest_fit_rows then
        { st with smallest_fit := some A, smallest_fit_rows := A.rows }
      else st
    let margin := margin_pct_of A.cols needed
    let st2 :=
      if A.levels = max_levels then
        match st1.best_exact_match with
        | none => { st1 with best_exact_match := some A }
        | some cur =>
          let cur_needed := total_columns_needed d cur.levels
          let cur_margin := margin_pct_of cur.cols cur_needed
          if (50 ≤ margin ∧ margin ≤ 200) ∧ ¬(50 ≤ cur_margin ∧ cur_margin ≤ 200) then
            { st1 with best_exact_match := some A }
          else if (50 ≤ margin ∧ margin ≤ 200) ∧ (50 ≤ cur_margin ∧ cur_margin ≤ 200)
              ∧ cur.rows < A.rows then
            { st1 with best_exact_match := some A }
          else if ¬(50 ≤ margin ∧ margin ≤ 200) ∧ ¬(50 ≤ cur_margin ∧ cur_margin ≤ 200)
              ∧ A.rows < cur.rows then
            { st1 with best_exact_match := some A }
          else st1
      else st1
    if 0 < st2.smallest_fit_rows ∧ st2.smallest_fit_rows * 4 < A.rows then st2
    else if (50 ≤ margin ∧ margin ≤ 200) ∧ (st2.best_fit = none ∨ st2.best_margin_pct < margin) then
      { st2 with best_fit := some A, best_margin_pct := margin }
    else st2

/-- The selection scan over the catalog with the final preference order
exact match, then best margin fit, then smallest fit. -/
def selectArray (d : ExperimentDef) : Option OrthogonalArray :=
  let max_levels := max_factor_levels d
  let final := all_arrays.foldl (selStep d max_levels) ⟨none, none, none, 0, 0⟩
  match final.best_exact_match with
  | some A => some A
  | none =>
    match final.best_fit with
    | some A => some A
    | none => final.smallest_fit

def suggest_optimal_array (d : ExperimentDef) : Option String :=
  (selectArray d).map (fun A => A.name)

/-! ### Run generator (src/lib/generator.c) -/

structure ExperimentRun where
  run_id : Nat
  factor_names : List String
  values : List String
deriving DecidableEq

inductive GenError where
  | noSuitableArray : GenError
  | unknownArray : String → GenError
  /-- array name, available columns, needed columns (the quantities
  formatted into `error_buf` by `check_array_compatibility`). -/
  | columnOverflow : String → Nat → Nat → GenError
deriving DecidableEq

/-- `col_start[i]`: the running column pointer, i.e. the total columns
consumed by the factors before `i`. -/
def col_start (d : ExperimentDef) (base_levels i : Nat) : Nat :=
  ((d.factors.take i).map (fun f => columns_needed_for_factor f.level_count base_levels)).sum

/-- The inner multiplier loop `for (p = c+1; p < k; p++) multiplier *= base`,
i.e. `base^(k-1-c)` computed by repeated multiplication. -/
def pair_multiplier (base k c : Nat) : Nat :=
  (List.range (k - (c + 1))).foldl (fun m _ => m * base) 1

/-- The decoded raw index of a factor: the single cell when it occupies
one column, otherwise the big-endian accumulation
`Σ_c cell(run, start+c) · multiplier(c)`. -/
def factor_level_index (A : OrthogonalArray) (run_idx start k : Nat) : Nat :=
  if k = 1 then oaCell A run_idx start
  else (List.range k).foldl
    (fun acc c => acc + oaCell A run_idx (start + c) * pair_multiplier A.levels k c) 0

/-- `strcpy(run->values[i], factor->values[level_index % level_count])`.
(The C guard `if (level_index < 0) level_index = 0` is unreachable over `Nat`.) -/
def decode_value (A : OrthogonalArray) (f : Factor) (run_idx start k : Nat) : String :=
  f.values.getD (factor_level_index A run_idx start k % f.level_count) ""

def make_runs (d : ExperimentDef) (A : OrthogonalArray) : List ExperimentRun :=
  (List.range A.rows).map (fun run_idx =>
    { run_id := run_idx + 1,
      factor_names := d.factors.map (fun f => f.name),
      values := d.factors.enum.map (fun p =>
        decode_value A p.2 run_idx (col_start d A.levels p.1)
          (columns_needed_for_factor p.2.level_count A.levels)) })

/-- `check_array_compatibility` (generator.c): the factors fit iff the
total paired-column need does not exceed the array's columns. -/
def check_array_compatibility (d : ExperimentDef) (A : OrthogonalArray) : Bool :=
  decide (total_columns_needed d A.levels ≤ A.cols)

/-- `generate_experiments` (generator.c): resolve the array (auto-select
when `array_type` is empty, catalog lookup otherwise), check column
capacity, then emit one run per array row. -/
def generate_experiments (d : ExperimentDef) : Except GenError (List ExperimentRun) :=
  let arrRes : Except GenError OrthogonalArray :=
    if d.array_type.length = 0 then
      match selectArray d with
      | none => .error .noSuitableArray
      | some A => .ok A
    else
      match get_array d.array_type with
      | none => .error (.unknownArray d.array_type)
      | some A => .ok A
  match arrRes with
  | .error e => .error e
  | .ok A =>
    if check_array_compatibility d A then .ok (make_runs d A)
    else .error (.columnOverflow A.name A.cols (total_columns_needed d A.levels))

/-! ### Result store and analyzer (src/lib/analyzer.c) -/

structure ResultSet where
  /-- (run_id, response) samples in append order; the C struct keeps two
  parallel arrays `run_ids` / `responses` with a shared `count`. -/
  samples : List (Nat × ℚ)
  metric_name : String
  experiment_def : ExperimentDef

def create_result_set (d : ExperimentDef) (metric_name : String) : ResultSet :=
  { samples := [], metric_name := metric_name, experiment_def := d }

/-- `add_result`: append at index `count` (capacity growth is invisible at
this level). -/
def add_result (rs : ResultSet) (run_id : Nat) (response : ℚ) : ResultSet :=
  { rs with samples := rs.samples ++ [(run_id, response)] }

/-- The scan of `get_response_for_run`: first stored sample whose run id
matches, else 0.0. -/
def lookup_response : List (Nat × ℚ) → Nat → ℚ
  | [], _ => 0
  | s :: rest, run_id => if s.1 = run_id then s.2 else lookup_response rest run_id

def get_response_for_run (rs : ResultSet) (run_id : Nat) : ℚ :=
  lookup_response rs.samples run_id

structure MainEffect where
  factor_name : String
  level_means : List ℚ
  range : ℚ
deriving DecidableEq

/-- One sample step of the accumulation loop in `calculate_main_effects`:
`level_idx = (run_id - 1) % level_count; sums[idx] += r; counts[idx]++`. -/
def accum_level (L : Nat) (acc : List ℚ × List Nat) (s : Nat × ℚ) : List ℚ × List Nat :=
  let level_idx := (s.1 - 1) % L
  (acc.1.set level_idx (acc.1.getD level_idx 0 + s.2),
   acc.2.set level_idx (acc.2.getD level_idx 0 + 1))

/-- Per-factor body of `calculate_main_effects`: accumulate by the
`(run_id - 1) % level_count` mapping, take per-level means (0 for empty
levels), and range = max − min of the means. -/
def calc_effect (samples : List (Nat × ℚ)) (f : Factor) : MainEffect :=
  let L := f.level_count
  let sums := (samples.foldl (accum_level L) (List.replicate L 0, List.replicate L 0)).1
  let counts := (samples.foldl (accum_level L) (List.replicate L 0, List.replicate L 0)).2
  let means := (List.range L).map (fun l =>
    if 0 < counts.getD l 0 then sums.getD l 0 / (counts.getD l 0 : ℚ) else 0)
  let range :=
    if 0 < L then means.foldl max (means.getD 0 0) - means.foldl min (means.getD 0 0)
    else 0
  { factor_name := f.name, level_means := means, range := range }

def calculate_main_effects (rs : ResultSet) : List MainEffect :=
  rs.experiment_def.factors.map (calc_effect rs.samples)

/-- The per-factor best-level scan of `recommend_optimal_levels` (strict
comparison from index 1, so the lowest index wins ties). The C function
computes this value and then discards it (`(void)best_level_idx`). -/
def bestGo (higher_is_better : Bool) : List ℚ → Nat → Nat → ℚ → Nat
  | [], _, best, _ => best
  | m :: rest, idx, best, bestv =>
    if (if higher_is_better then bestv < m else m < bestv) then
      bestGo higher_is_better rest (idx + 1) idx m
    else bestGo higher_is_better rest (idx + 1) best bestv

def best_level_idx (e : MainEffect) (higher_is_better : Bool) : Nat :=
  match e.level_means with
  | [] => 0
  | m0 :: rest => bestGo higher_is_better rest 1 0 m0

/-- The string actually built by `recommend_optimal_levels`:
`"Optimal configuration: "` followed by `"<factor>=best"` for each
factor, comma-separated. -/
def recommend_optimal_levels (effects : List MainEffect) : String :=
  "Optimal configuration: "
    ++ String.intercalate ", " (effects.map (fun e => e.factor_name ++ "=best"))

/-! ### Validation (src/lib/parser.c validate_experiment_def,
src/lib/taguchi.c taguchi_add_factor) -/

def validate_experiment_def (d : ExperimentDef) : Bool :=
  if d.factors.length = 0 ∨ MAX_FACTORS < d.factors.length then false
  else d.factors.all (fun f =>
    decide (f.name.length ≠ 0) &&
    decide (¬(f.level_count = 0 ∨ MAX_LEVELS < f.level_count)))

/-- The parameter checks of `taguchi_add_factor`; `some` is the updated
definition on success, `none` the `-1` error return. -/
def taguchi_add_factor (d : ExperimentDef) (name : String) (levels : List String) :
    Option ExperimentDef :=
  if levels.length = 0 ∨ MAX_LEVELS < levels.length then none
  else if MAX_FACTORS ≤ d.factors.length then none
  else if MAX_FACTOR_NAME ≤ name.length then none
  else if levels.any (fun v => decide (MAX_LEVEL_VALUE ≤ v.length)) then none
  else some { d with factors := d.factors ++ [{ name := name, values := levels }] }

/-! ### Mathematical companions of the embedding

`digitZ` is the big-endian digit tuple of a row index viewed in `ZMod p`
(the `x` tuple of `generate_power_oa`), `encBE` its inverse, `vecZ` a
column vector viewed in `ZMod p`, and `pairCount` the row count of the
orthogonality invariant. -/

def digitZ (p n r : Nat) : Fin n → ZMod p :=
  fun t => ((r / p ^ (n - 1 - (t : Nat)) % p : Nat) : ZMod p)

def encBE (p n : Nat) (x : Fin n → ZMod p) : Nat :=
  ∑ t : Fin n, (x t).val * p ^ (n - 1 - (t : Nat))

def vecZ (p n : Nat) (v : List Nat) : Fin n → ZMod p :=
  fun t => ((v.getD (t : Nat) 0 : Nat) : ZMod p)

/-- The column functionals of the four stored tables: stored column `c` of
`L4`, `L8`, `L9`, `L16` equals `(Σ_k cols[c][k]·x_r[k]) mod p` over the
base-`p` digits `x_r` of the row index (proved below by evaluating both
sides), which lets the stored tables share the generated-array
orthogonality argument. -/

def L4cols : List (List Nat) := [[1, 0], [0, 1], [1, 1]]

def L8cols : List (List Nat) :=
  [[1, 0, 0], [0, 1, 0], [1, 1, 0], [0, 0, 1], [1, 0, 1], [0, 1, 1], [1, 1, 1]]

def L9cols : List (List Nat) := [[1, 0], [0, 1], [1, 1], [2, 1]]

def L16cols : List (List Nat) :=
  [[1, 0, 0, 0], [0, 1, 0, 0], [1, 1, 0, 0], [0, 0, 1, 0], [1, 0, 1, 0],
   [0, 1, 1, 0], [1, 1, 1, 0], [0, 0, 0, 1], [1, 0, 0, 1], [0, 1, 0, 1],
   [1, 1, 0, 1], [0, 0, 1, 1], [1, 0, 1, 1], [0, 1, 1, 1], [1, 1, 1, 1]]


/-- Default element used by indexed access into factor lists. -/
def fDefault : Factor := { name := "", values := [] }

/-- Default element used by indexed access into run lists. -/
def runDefault : ExperimentRun := { run_id := 0, factor_names := [], values := [] }

/-- `|{r < A.rows : A[r][c1] = a ∧ A[r][c2] = b}|`. -/
def pairCount (A : OrthogonalArray) (c1 c2 a b : Nat) : Nat :=
  ((Finset.range A.rows).filter (fun r => oaCell A r c1 = a ∧ oaCell A r c2 = b)).card


/-! ### Concrete experiment definitions used in the development -/

/-- Five 3-level factors, no explicit array (auto-selection). -/
def fiveThreeLevelDef : ExperimentDef :=
  { factors := [{ name := "f1", values := ["a", "b", "c"] },
                { name := "f2", values := ["a", "b", "c"] },
                { name := "f3", values := ["a", "b", "c"] },
                { name := "f4", values := ["a", "b", "c"] },
                { name := "f5", values := ["a", "b", "c"] }],
    array_type := "" }

/-- Three 9-level factors on the explicit array L9 (column overflow). -/
def threeNineLevelDef : ExperimentDef :=
  { factors := [{ name := "f1", values := ["1", "2", "3", "4", "5", "6", "7", "8", "9"] },
                { name := "f2", values := ["1", "2", "3", "4", "5", "6", "7", "8", "9"] },
                { name := "f3", values := ["1", "2", "3", "4", "5", "6", "7", "8", "9"] }],
    array_type := "L9" }

/-- Two 9-level factors on L9, each consuming two paired columns. -/
def twoNineLevelDef : ExperimentDef :=
  { factors := [{ name := "factor_a",
                  values := ["a1", "a2", "a3", "a4", "a5", "a6", "a7", "a8", "a9"] },
                { name := "factor_b",
                  values := ["b1", "b2", "b3", "b4", "b5", "b6", "b7", "b8", "b9"] }],
    array_type := "L9" }

def twoNineLevelRuns : List ExperimentRun :=
  (generate_experiments twoNineLevelDef).toOption.getD []

/-- The L9 scenario of the analyzer test: factors A and B. -/
def dC3 : ExperimentDef :=
  { factors := [{ name := "A", values := ["a1", "a2", "a3"] },
                { name := "B", values := ["b1", "b2", "b3"] }],
    array_type := "L9" }

def runsC3 : List ExperimentRun :=
  (generate_experiments dC3).toOption.getD []

/-- Response keyed by factor A's level value: a1 → 10, a2 → 20, a3 → 30. -/
def responseByA (run : ExperimentRun) : ℚ :=
  if run.values.getD 0 "" = "a1" then 10
  else if run.values.getD 0 "" = "a2" then 20
  else 30

def samplesC3 : List (Nat × ℚ) :=
  runsC3.map (fun run => (run.run_id, responseByA run))

def resultsC3 : ResultSet :=
  { samples := samplesC3, metric_name := "output", experiment_def := dC3 }

/-- A definition with one factor carrying exactly one level. -/
def soloFactorDef : ExperimentDef :=
  { factors := [{ name := "solo", values := ["only"] }], array_type := "" }

/-- A result set built by repeated `add_result` starting from
`create_result_set`. -/
def build_result_set (d : ExperimentDef) (m : String)
    (samples : List (Nat × ℚ)) : ResultSet :=
  samples.foldl (fun rs sample => add_result rs sample.1 sample.2)
    (create_result_set d m)

end Taguchi

namespace Taguchi

/-! # Theorems

## Base-p digit arithmetic -/

theorem digit_lt {p : Nat} (hp : 0 < p) (r j : Nat) : r / p ^ j % p < p :=
  Nat.mod_lt _ hp

theorem digit_sum {p : Nat} (hp : 0 < p) :
    ∀ n r, r < p ^ n → ∑ j ∈ Finset.range n, r / p ^ j % p * p ^ j = r := by
  intro n
  induction n with
  | zero =>
    intro r hr
    simp only [pow_zero, Nat.lt_one_iff] at hr
    simp [hr]
  | succ n ih =>
    intro r hr
    rw [Finset.sum_range_succ']
    have hdivs : ∀ j : Nat, r / p ^ (j + 1) = r / p / p ^ j := by
      intro j
      rw [Nat.div_div_eq_div_mul, ← pow_succ']
    have hterm : ∀ j ∈ Finset.range n,
        r / p ^ (j + 1) % p * p ^ (j + 1) = r / p / p ^ j % p * p ^ j * p := by
      intro j _
      rw [hdivs j, pow_succ]
      ring
    rw [Finset.sum_congr rfl hterm, ← Finset.sum_mul]
    have hlt : r / p < p ^ n := by
      rw [Nat.div_lt_iff_lt_mul hp]
      calc r < p ^ (n + 1) := hr
        _ = p ^ n * p := pow_succ p n
    rw [ih (r / p) hlt]
    simp [Nat.div_add_mod, Nat.mul_comm]

theorem sum_digits_lt {p : Nat} (hp : 0 < p) :
    ∀ n (d : Nat → Nat), (∀ j, j < n → d j < p) →
      ∑ j ∈ Finset.range n, d j * p ^ j < p ^ n := by
  intro n
  induction n with
  | zero => intro d _; simp
  | succ n ih =>
    intro d hd
    rw [Finset.sum_range_succ']
    have hterm : ∀ j ∈ Finset.range n,
        d (j + 1) * p ^ (j + 1) = d (j + 1) * p ^ j * p := by
      intro j _
      rw [pow_succ]
      ring
    rw [Finset.sum_congr rfl hterm, ← Finset.sum_mul]
    have hS : ∑ j ∈ Finset.range n, d (j + 1) * p ^ j < p ^ n :=
      ih (fun j => d (j + 1)) (fun j hj => hd (j + 1) (by omega))
    have hd0 : d 0 < p := hd 0 (by omega)
    calc (∑ j ∈ Finset.range n, d (j + 1) * p ^ j) * p + d 0 * p ^ 0
          = (∑ j ∈ Finset.range n, d (j + 1) * p ^ j) * p + d 0 := by simp
      _ < (∑ j ∈ Finset.range n, d (j + 1) * p ^ j) * p + p := by omega
      _ = ((∑ j ∈ Finset.range n, d (j + 1) * p ^ j) + 1) * p := by ring
      _ ≤ p ^ n * p := Nat.mul_le_mul_right p hS
      _ = p ^ (n + 1) := (pow_succ p n).symm

theorem digit_of_sum {p : Nat} (hp : 0 < p) :
    ∀ k n (d : Nat → Nat), (∀ j, j < n → d j < p) → k < n →
      (∑ j ∈ Finset.range n, d j * p ^ j) / p ^ k % p = d k := by
  intro k
  induction k with
  | zero =>
    intro n d hd hk
    obtain ⟨m, rfl⟩ : ∃ m, n = m + 1 := ⟨n - 1, by omega⟩
    rw [Finset.sum_range_succ']
    have hterm : ∀ j ∈ Finset.range m,
        d (j + 1) * p ^ (j + 1) = d (j + 1) * p ^ j * p := by
      intro j _
      rw [pow_succ]; ring
    rw [Finset.sum_congr rfl hterm, ← Finset.sum_mul]
    simp only [pow_zero, Nat.div_one, mul_one]
    have h1 : (∑ j ∈ Finset.range m, d (j + 1) * p ^ j) * p + d 0
        = p * (∑ j ∈ Finset.range m, d (j + 1) * p ^ j) + d 0 := by ring
    rw [h1, Nat.mul_add_mod]
    exact Nat.mod_eq_of_lt (hd 0 (by omega))
  | succ k ih =>
    intro n d hd hk
    obtain ⟨m, rfl⟩ : ∃ m, n = m + 1 := ⟨n - 1, by omega⟩
    rw [Finset.sum_range_succ']
    have hterm : ∀ j ∈ Finset.range m,
        d (j + 1) * p ^ (j + 1) = d (j + 1) * p ^ j * p := by
      intro j _
      rw [pow_succ]; ring
    rw [Finset.sum_congr rfl hterm, ← Finset.sum_mul]
    simp only [pow_zero, mul_one]
    have h1 : (∑ j ∈ Finset.range m, d (j + 1) * p ^ j) * p + d 0
        = p * (∑ j ∈ Finset.range m, d (j + 1) * p ^ j) + d 0 := by ring
    have hdiv : (p * (∑ j ∈ Finset.range m, d (j + 1) * p ^ j) + d 0) / p ^ (k + 1)
        = (∑ j ∈ Finset.range m, d (j + 1) * p ^ j) / p ^ k := by
      rw [pow_succ', ← Nat.div_div_eq_div_mul]
      congr 1
      rw [Nat.mul_add_div hp, Nat.div_eq_of_lt (hd 0 (by omega)), Nat.add_zero]
    rw [h1, hdiv]
    exact ih m (fun j => d (j + 1)) (fun j hj => hd (j + 1) (by omega)) (by omega)

/-! ## The bijection between row indices and big-endian digit tuples -/

theorem digitZ_encBE {p n : Nat} (hp : 1 < p) (hn : 0 < n) (x : Fin n → ZMod p) :
    digitZ p n (encBE p n x) = x := by
  haveI : NeZero p := ⟨by omega⟩
  set g : Nat → Nat := fun i => (x ⟨i % n, Nat.mod_lt i hn⟩).val with hg
  have hgx : ∀ t : Fin n, g (t : Nat) = (x t).val := by
    intro t
    simp only [hg]
    congr 2
    exact Fin.ext (Nat.mod_eq_of_lt t.isLt)
  have henc : encBE p n x = ∑ j ∈ Finset.range n, g (n - 1 - j) * p ^ j := by
    rw [encBE,
      show (∑ t : Fin n, (x t).val * p ^ (n - 1 - (t : Nat)))
          = ∑ t : Fin n, g (t : Nat) * p ^ (n - 1 - (t : Nat)) from
        Finset.sum_congr rfl (fun t _ => by rw [hgx t]),
      Fin.sum_univ_eq_sum_range (fun i => g i * p ^ (n - 1 - i)) n,
      ← Finset.sum_range_reflect (fun i => g i * p ^ (n - 1 - i)) n]
    apply Finset.sum_congr rfl
    intro j hj
    have hj' : n - 1 - (n - 1 - j) = j := by
      have := Finset.mem_range.mp hj
      omega
    rw [hj']
  have hdlt : ∀ j, j < n → g (n - 1 - j) < p := fun j _ => ZMod.val_lt _
  funext t
  have hidx : n - 1 - (n - 1 - (t : Nat)) = (t : Nat) := by
    have := t.isLt
    omega
  rw [digitZ, henc,
    digit_of_sum (by omega) (n - 1 - (t : Nat)) n (fun j => g (n - 1 - j)) hdlt
      (by have := t.isLt; omega),
    hidx, hgx t]
  exact ZMod.natCast_rightInverse (x t)

theorem encBE_lt {p n : Nat} (hp : 1 < p) (hn : 0 < n) (x : Fin n → ZMod p) :
    encBE p n x < p ^ n := by
  haveI : NeZero p := ⟨by omega⟩
  set g : Nat → Nat := fun i => (x ⟨i % n, Nat.mod_lt i hn⟩).val with hg
  have hgx : ∀ t : Fin n, g (t : Nat) = (x t).val := by
    intro t
    simp only [hg]
    congr 2
    exact Fin.ext (Nat.mod_eq_of_lt t.isLt)
  have henc : encBE p n x = ∑ j ∈ Finset.range n, g (n - 1 - j) * p ^ j := by
    rw [encBE,
      show (∑ t : Fin n, (x t).val * p ^ (n - 1 - (t : Nat)))
          = ∑ t : Fin n, g (t : Nat) * p ^ (n - 1 - (t : Nat)) from
        Finset.sum_congr rfl (fun t _ => by rw [hgx t]),
      Fin.sum_univ_eq_sum_range (fun i => g i * p ^ (n - 1 - i)) n,
      ← Finset.sum_range_reflect (fun i => g i * p ^ (n - 1 - i)) n]
    apply Finset.sum_congr rfl
    intro j hj
    have hj' : n - 1 - (n - 1 - j) = j := by
      have := Finset.mem_range.mp hj
      omega
    rw [hj']
  rw [henc]
  exact sum_digits_lt (by omega) n (fun j => g (n - 1 - j)) (fun j _ => ZMod.val_lt _)

theorem encBE_digitZ {p n : Nat} (hp : 1 < p) (r : Nat) (hr : r < p ^ n) :
    encBE p n (digitZ p n r) = r := by
  haveI : NeZero p := ⟨by omega⟩
  have hval : ∀ t : Fin n, ((digitZ p n r t).val : Nat) = r / p ^ (n - 1 - (t : Nat)) % p := by
    intro t
    rw [digitZ]
    exact ZMod.val_cast_of_lt (digit_lt (by omega) r _)
  rw [encBE,
    show (∑ t : Fin n, (digitZ p n r t).val * p ^ (n - 1 - (t : Nat)))
        = ∑ t : Fin n, r / p ^ (n - 1 - (t : Nat)) % p * p ^ (n - 1 - (t : Nat)) from
      Finset.sum_congr rfl (fun t _ => by rw [hval t]),
    Fin.sum_univ_eq_sum_range (fun i => r / p ^ (n - 1 - i) % p * p ^ (n - 1 - i)) n,
    ← Finset.sum_range_reflect (fun i => r / p ^ (n - 1 - i) % p * p ^ (n - 1 - i)) n]
  rw [show (∑ j ∈ Finset.range n,
        r / p ^ (n - 1 - (n - 1 - j)) % p * p ^ (n - 1 - (n - 1 - j)))
      = ∑ j ∈ Finset.range n, r / p ^ j % p * p ^ j from
    Finset.sum_congr rfl (fun j hj => by
      have hj' : n - 1 - (n - 1 - j) = j := by
        have := Finset.mem_range.mp hj
        omega
      rw [hj'])]
  exact digit_sum (by omega) n r hr

/-- Counting rows of `[0, p^n)` whose digit tuple satisfies `P` is the
same as counting digit tuples satisfying `P`. -/
theorem card_digit_filter {p n : Nat} [NeZero p] (hp : 1 < p) (hn : 0 < n)
    (P : (Fin n → ZMod p) → Prop) [DecidablePred P] :
    ((Finset.range (p ^ n)).filter (fun r => P (digitZ p n r))).card
      = (Finset.univ.filter P).card := by
  refine Finset.card_nbij' (fun r => digitZ p n r) (fun x => encBE p n x) ?_ ?_ ?_ ?_
  · intro r hr
    simp only [Finset.mem_filter] at hr ⊢
    exact ⟨Finset.mem_univ _, hr.2⟩
  · intro x hx
    simp only [Finset.mem_filter, Finset.mem_range] at hx ⊢
    exact ⟨encBE_lt hp hn x, by rw [digitZ_encBE hp hn x]; exact hx.2⟩
  · intro r hr
    simp only [Finset.mem_filter, Finset.mem_range] at hr
    exact encBE_digitZ hp r hr.1
  · intro x hx
    exact digitZ_encBE hp hn x

/-! ## Fiber counting for independent linear constraint families -/

theorem fiber_card_eq {p : Nat} [Fact p.Prime] {n k : Nat}
    (v : Fin k → Fin n → ZMod p) (hv : LinearIndependent (ZMod p) v)
    (y : Fin k → ZMod p) :
    (Finset.univ.filter
        (fun x : Fin n → ZMod p => ∀ j, ∑ i, v j i * x i = y j)).card
      = p ^ (n - k) := by
  have hp : 1 < p := (Fact.out : p.Prime).one_lt
  haveI : NeZero p := ⟨by omega⟩
  set N : Matrix (Fin k) (Fin n) (ZMod p) := Matrix.of v with hN
  have hmul : ∀ x : Fin n → ZMod p, N.mulVec x = fun j => ∑ i, v j i * x i := by
    intro x
    funext j
    simp [hN, Matrix.mulVec, Matrix.dotProduct]
  have hinj : Function.Injective (N.transpose.mulVec) := by
    rw [Matrix.mulVec_injective_iff]
    simpa [hN] using hv
  have hrankT : N.transpose.rank = k := by
    have hi : Function.Injective (N.transpose.mulVecLin) := by
      rwa [Matrix.coe_mulVecLin]
    rw [Matrix.rank, LinearMap.finrank_range_of_inj hi, Module.finrank_pi,
      Fintype.card_fin]
  have hrank : N.rank = k := by
    rw [← Matrix.rank_transpose]
    exact hrankT
  have htop : LinearMap.range (N.mulVecLin) = ⊤ := by
    apply Submodule.eq_top_of_finrank_eq
    have h1 : Module.finrank (ZMod p) (LinearMap.range N.mulVecLin) = N.rank := rfl
    rw [h1, hrank, Module.finrank_pi, Fintype.card_fin]
  have hsurj : Function.Surjective (N.mulVec) := by
    intro y'
    obtain ⟨x, hx⟩ := LinearMap.range_eq_top.mp htop y'
    exact ⟨x, by rwa [← Matrix.mulVecLin_apply]⟩
  have hkn : k ≤ n := by
    have h1 := LinearIndependent.fintype_card_le_finrank hv
    rwa [Fintype.card_fin, Module.finrank_pi, Fintype.card_fin] at h1
  have hfib : ∀ y' : Fin k → ZMod p,
      (Finset.univ.filter (fun x : Fin n → ZMod p => N.mulVec x = y')).card
        = (Finset.univ.filter (fun x : Fin n → ZMod p => N.mulVec x = 0)).card := by
    intro y'
    obtain ⟨x₁, hx₁⟩ := hsurj y'
    refine (Finset.card_nbij' (fun x => x + x₁) (fun x => x - x₁) ?_ ?_ ?_ ?_).symm
    · intro a ha
      simp only [Finset.mem_filter, Finset.mem_univ, true_and] at ha ⊢
      rw [Matrix.mulVec_add, ha, hx₁, zero_add]
    · intro a ha
      simp only [Finset.mem_filter, Finset.mem_univ, true_and] at ha ⊢
      rw [Matrix.mulVec_sub, ha, hx₁, sub_self]
    · intro a _
      exact add_sub_cancel_right a x₁
    · intro a _
      exact sub_add_cancel a x₁
  have hpartition : (Finset.univ : Finset (Fin n → ZMod p)).card
      = ∑ y' : Fin k → ZMod p,
          (Finset.univ.filter (fun x : Fin n → ZMod p => N.mulVec x = y')).card :=
    Finset.card_eq_sum_card_fiberwise (fun x _ => Finset.mem_univ _)
  have hcards : p ^ n = p ^ k *
      (Finset.univ.filter (fun x : Fin n → ZMod p => N.mulVec x = 0)).card := by
    have hleft : (Finset.univ : Finset (Fin n → ZMod p)).card = p ^ n := by
      rw [Finset.card_univ, Fintype.card_fun, ZMod.card, Fintype.card_fin]
    have hright : (∑ y' : Fin k → ZMod p,
        (Finset.univ.filter (fun x : Fin n → ZMod p => N.mulVec x = y')).card)
        = p ^ k *
          (Finset.univ.filter (fun x : Fin n → ZMod p => N.mulVec x = 0)).card := by
      rw [Finset.sum_congr rfl (fun y' _ => hfib y'), Finset.sum_const, Finset.card_univ,
        Fintype.card_fun, ZMod.card, Fintype.card_fin, smul_eq_mul]
    rw [← hleft, hpartition, hright]
  have hker : (Finset.univ.filter
      (fun x : Fin n → ZMod p => N.mulVec x = 0)).card = p ^ (n - k) := by
    have hpk : 0 < p ^ k := Nat.pos_pow_of_pos k (by omega)
    apply Nat.eq_of_mul_eq_mul_left hpk
    rw [← hcards, ← pow_add]
    congr 1
    omega
  have hpred : ∀ x : Fin n → ZMod p,
      (∀ j, ∑ i, v j i * x i = y j) ↔ N.mulVec x = y := by
    intro x
    rw [hmul x]
    exact (funext_iff).symm
  rw [Finset.filter_congr (fun x _ => by rw [hpred x])]
  rw [hfib y]
  exact hker

/-! ## Structure of the canonical column-vector list -/

theorem getD_map_range {α : Type} (f : Nat → α) {n k : Nat} (d : α) (h : k < n) :
    ((List.range n).map f).getD k d = f k := by
  rw [List.getD_eq_getElem?_getD, List.getElem?_map, List.getElem?_range h]
  rfl

theorem digitsList_length (p n r : Nat) : (digitsList p n r).length = n := by
  simp [digitsList]

theorem digitsList_getD {p n r k : Nat} (h : k < n) :
    (digitsList p n r).getD k 0 = r / p ^ (n - 1 - k) % p :=
  getD_map_range _ 0 h

theorem unitVec_length (n i : Nat) : (unitVec n i).length = n := by
  simp [unitVec]

theorem unitVec_getD {n i k : Nat} (h : k < n) :
    (unitVec n i).getD k 0 = if k = i then 1 else 0 :=
  getD_map_range _ 0 h

theorem list_eq_of_getD {n : Nat} {v w : List Nat} (hv : v.length = n) (hw : w.length = n)
    (h : ∀ j, j < n → v.getD j 0 = w.getD j 0) : v = w := by
  apply List.ext_getElem (by omega)
  intro i h1 h2
  have h3 := h i (by omega)
  rwa [List.getD_eq_getElem?_getD, List.getD_eq_getElem?_getD,
    List.getElem?_eq_getElem h1, List.getElem?_eq_getElem h2,
    Option.getD_some, Option.getD_some] at h3

theorem is_canonical_iff :
    ∀ v : List Nat, is_canonical v = true ↔
      ∃ i, i < v.length ∧ v.getD i 0 = 1 ∧ ∀ j, j < i → v.getD j 0 = 0 := by
  intro v
  induction v with
  | nil => simp [is_canonical]
  | cons x xs ih =>
    rw [is_canonical]
    by_cases hx : x = 0
    · subst hx
      simp only [ne_eq, not_true_eq_false, if_false]
      rw [ih]
      constructor
      · rintro ⟨i, hi, h1, h0⟩
        refine ⟨i + 1, by simpa using hi, by simpa using h1, ?_⟩
        intro j hj
        match j with
        | 0 => simp
        | j + 1 => simpa using h0 j (by omega)
      · rintro ⟨i, hi, h1, h0⟩
        match i with
        | 0 => simp at h1
        | i + 1 =>
          refine ⟨i, by simpa using hi, by simpa using h1, ?_⟩
          intro j hj
          simpa using h0 (j + 1) (by omega)
    · rw [if_pos hx]
      constructor
      · intro h1
        refine ⟨0, by simp, by simpa using h1, by omega⟩
      · rintro ⟨i, hi, h1, h0⟩
        match i with
        | 0 => simpa using h1
        | i + 1 => exact absurd (by simpa using h0 0 (by omega)) hx

theorem nonzero_count_unitVec {n i : Nat} (h : i < n) :
    nonzero_count (unitVec n i) = 1 := by
  rw [nonzero_count, unitVec, ← List.countP_eq_length_filter, List.countP_map]
  have hfn : ((fun x => x != 0) ∘ fun k => if k = i then (1 : Nat) else 0)
      = fun k => k == i := by
    funext k
    by_cases hk : k = i <;> simp [hk]
  rw [hfn]
  exact List.count_eq_one_of_mem (List.nodup_range n) (List.mem_range.mpr h)

theorem digitsList_inj {p n a b : Nat} (hp : 0 < p) (ha : a < p ^ n) (hb : b < p ^ n)
    (h : digitsList p n a = digitsList p n b) : a = b := by
  have hd : ∀ j, j < n → a / p ^ j % p = b / p ^ j % p := by
    intro j hj
    have h1 : (digitsList p n a).getD (n - 1 - j) 0 = (digitsList p n b).getD (n - 1 - j) 0 := by
      rw [h]
    rw [digitsList_getD (by omega), digitsList_getD (by omega)] at h1
    have hidx : n - 1 - (n - 1 - j) = j := by omega
    rwa [hidx] at h1
  calc a = ∑ j ∈ Finset.range n, a / p ^ j % p * p ^ j := (digit_sum hp n a ha).symm
    _ = ∑ j ∈ Finset.range n, b / p ^ j % p * p ^ j :=
      Finset.sum_congr rfl (fun j hj => by rw [hd j (Finset.mem_range.mp hj)])
    _ = b := digit_sum hp n b hb

theorem colVectors_spec {p n : Nat} (hp : 1 < p) :
    ∀ w ∈ colVectors p n,
      w.length = n ∧ (∀ j, w.getD j 0 < p) ∧ is_canonical w = true := by
  intro w hw
  rw [colVectors, List.mem_append] at hw
  rcases hw with hw | hw
  · obtain ⟨i, hi, rfl⟩ := List.mem_map.mp hw
    have hin : i < n := List.mem_range.mp hi
    refine ⟨unitVec_length n i, ?_, ?_⟩
    · intro j
      by_cases hj : j < n
      · rw [unitVec_getD hj]
        split <;> omega
      · rw [List.getD_eq_default _ _ (by rw [unitVec_length]; omega)]
        omega
    · rw [is_canonical_iff]
      refine ⟨i, by rw [unitVec_length]; exact hin, by rw [unitVec_getD hin]; simp, ?_⟩
      intro j hj
      by_cases hjn : j < n
      · rw [unitVec_getD hjn]
        simp
        omega
      · rw [List.getD_eq_default _ _ (by rw [unitVec_length]; omega)]
  · rw [List.mem_filter] at hw
    obtain ⟨hwm, hwp⟩ := hw
    obtain ⟨t, _, rfl⟩ := List.mem_map.mp hwm
    refine ⟨digitsList_length p n (t + 1), ?_, ?_⟩
    · intro j
      by_cases hj : j < n
      · rw [digitsList_getD hj]
        exact digit_lt (by omega) _ _
      · rw [List.getD_eq_default _ _ (by rw [digitsList_length]; omega)]
        omega
    · exact (Bool.and_eq_true _ _).mp hwp |>.1

theorem colVectors_nodup {p n : Nat} (hp : 1 < p) : (colVectors p n).Nodup := by
  rw [colVectors, List.nodup_append]
  refine ⟨?_, ?_, ?_⟩
  · apply List.Nodup.map_on ?_ (List.nodup_range n)
    intro i hi j hj hij
    have hin : i < n := List.mem_range.mp hi
    have h1 : (unitVec n i).getD i 0 = (unitVec n j).getD i 0 := by rw [hij]
    rw [unitVec_getD hin, unitVec_getD hin] at h1
    simp at h1
    by_cases h : i = j
    · exact h
    · rw [if_neg (by omega)] at h1
      omega
  · apply List.Nodup.filter
    apply List.Nodup.map_on ?_ (List.nodup_range (p ^ n - 1))
    intro i hi j hj hij
    have hin : i < p ^ n - 1 := List.mem_range.mp hi
    have hjn : j < p ^ n - 1 := List.mem_range.mp hj
    have := digitsList_inj (by omega) (a := i + 1) (b := j + 1)
      (by omega) (by omega) hij
    omega
  · intro w hw1 hw2
    obtain ⟨i, hi, rfl⟩ := List.mem_map.mp hw1
    have hin : i < n := List.mem_range.mp hi
    rw [List.mem_filter] at hw2
    have h2 := (Bool.and_eq_true _ _).mp hw2.2 |>.2
    rw [decide_eq_true_iff, nonzero_count_unitVec hin] at h2
    omega

/-! ## Counting the canonical column vectors -/

theorem getD_replicate_zero (m k : Nat) : (List.replicate m 0).getD k 0 = 0 := by
  rw [List.getD_eq_getElem?_getD, List.getElem?_replicate]
  split <;> rfl

theorem nonzero_count_append (a b : List Nat) :
    nonzero_count (a ++ b) = nonzero_count a + nonzero_count b := by
  simp [nonzero_count, List.filter_append]

theorem nonzero_count_replicate_zero : ∀ m, nonzero_count (List.replicate m 0) = 0 := by
  intro m
  induction m with
  | zero => rfl
  | succ m ih =>
    rw [List.replicate_succ, nonzero_count, List.filter_cons]
    simpa [nonzero_count] using ih

theorem nonzero_count_cons (x : Nat) (w : List Nat) :
    nonzero_count (x :: w) = (if x ≠ 0 then 1 else 0) + nonzero_count w := by
  rw [nonzero_count, nonzero_count, List.filter_cons]
  by_cases hx : x = 0
  · subst hx; simp
  · simp [hx]
    omega

theorem nonzero_count_pos {v : List Nat} : 0 < nonzero_count v ↔ ∃ x ∈ v, x ≠ 0 := by
  rw [nonzero_count, ← List.countP_eq_length_filter, List.countP_pos_iff]
  simp

theorem is_canonical_zeros_one : ∀ (m : Nat) (w : List Nat),
    is_canonical (List.replicate m 0 ++ 1 :: w) = true := by
  intro m
  induction m with
  | zero =>
    intro w
    rw [List.replicate_zero, List.nil_append, is_canonical]
    simp
  | succ m ih =>
    intro w
    rw [List.replicate_succ, List.cons_append, is_canonical]
    simpa using ih w

/-- Splitting the digit list of `p^e + s` (for `s < p^e`, `e < n`) into the
leading zeros, the leading `1` and the digit list of `s`. -/
theorem digitsList_split {p n e s : Nat} (hp : 1 < p) (he : e < n) (hs : s < p ^ e) :
    digitsList p n (p ^ e + s) = List.replicate (n - 1 - e) 0 ++ 1 :: digitsList p e s := by
  have hpe : 0 < p ^ e := pow_pos (by omega) e
  refine list_eq_of_getD (digitsList_length p n _) ?_ ?_
  · rw [List.length_append, List.length_replicate, List.length_cons, digitsList_length]
    omega
  · intro k hk
    rw [digitsList_getD hk]
    rcases Nat.lt_trichotomy k (n - 1 - e) with hk1 | hk1 | hk1
    · rw [List.getD_append _ _ _ _ (by rw [List.length_replicate]; exact hk1),
        getD_replicate_zero]
      have hE : e + 1 ≤ n - 1 - k := by omega
      have h2 : p ^ (e + 1) = p * p ^ e := pow_succ' p e
      have h3 : 2 * p ^ e ≤ p * p ^ e := Nat.mul_le_mul_right _ (by omega)
      have h4 : p ^ (e + 1) ≤ p ^ (n - 1 - k) := Nat.pow_le_pow_right (by omega) hE
      have hfin : p ^ e + s < p ^ (n - 1 - k) := by omega
      rw [Nat.div_eq_of_lt hfin, Nat.zero_mod]
    · rw [List.getD_append_right _ _ _ _ (by rw [List.length_replicate]; omega)]
      rw [List.length_replicate, hk1, Nat.sub_self, List.getD_cons_zero]
      have h2 : n - 1 - (n - 1 - e) = e := by omega
      rw [h2, Nat.add_comm, Nat.add_div_right _ hpe, Nat.div_eq_of_lt hs]
      exact Nat.mod_eq_of_lt hp
    · rw [List.getD_append_right _ _ _ _ (by rw [List.length_replicate]; omega)]
      rw [List.length_replicate]
      have hj : k - (n - 1 - e) = (k - (n - 1 - e) - 1) + 1 := by omega
      rw [hj, List.getD_cons_succ]
      have hjlt : k - (n - 1 - e) - 1 < e := by omega
      rw [digitsList_getD hjlt]
      have hee : e - 1 - (k - (n - 1 - e) - 1) = n - 1 - k := by omega
      rw [hee]
      have hlt2 : n - 1 - k < e := by omega
      have hpE : 0 < p ^ (n - 1 - k) := pow_pos (by omega) _
      have hpow : p ^ (e - (n - 1 - k) - 1) * p * p ^ (n - 1 - k) = p ^ e := by
        rw [← pow_succ, ← pow_add]
        congr 1
        omega
      have hsplit2 : p ^ e + s = s + p ^ (e - (n - 1 - k) - 1) * p * p ^ (n - 1 - k) := by
        rw [hpow, Nat.add_comm]
      rw [hsplit2, Nat.add_mul_div_right _ _ hpE, Nat.add_mul_mod_self_right]

theorem nonzero_count_digits_pos {p e s : Nat} (hp : 1 < p) (hs : s < p ^ e) :
    0 < nonzero_count (digitsList p e s) ↔ 0 < s := by
  constructor
  · intro h
    rcases Nat.eq_zero_or_pos s with rfl | hpos
    · exfalso
      obtain ⟨x, hx, hxne⟩ := nonzero_count_pos.mp h
      obtain ⟨k, _, rfl⟩ := List.mem_map.mp hx
      simp at hxne
    · exact hpos
  · intro hs0
    rw [nonzero_count_pos]
    by_contra hall
    push_neg at hall
    have hz : ∀ j, j < e → s / p ^ j % p = 0 := by
      intro j hj
      apply hall
      refine List.mem_map.mpr ⟨e - 1 - j, List.mem_range.mpr (by omega), ?_⟩
      show s / p ^ (e - 1 - (e - 1 - j)) % p = s / p ^ j % p
      have hjj : e - 1 - (e - 1 - j) = j := by omega
      rw [hjj]
    have hsum := digit_sum (by omega : (0:Nat) < p) e s hs
    rw [Finset.sum_congr rfl (fun j hj => by
      rw [hz j (Finset.mem_range.mp hj), Nat.zero_mul])] at hsum
    simp at hsum
    omega

theorem lt_pow_of_high_digits_zero {p n e r : Nat} (hp : 0 < p) (hr : r < p ^ n)
    (he : e < n) (h : ∀ e', e < e' → e' < n → r / p ^ e' % p = 0) :
    r < p ^ (e + 1) := by
  have hsum := digit_sum hp n r hr
  have hsplit : ∑ j ∈ Finset.range (e + 1), r / p ^ j % p * p ^ j
      + ∑ j ∈ Finset.Ico (e + 1) n, r / p ^ j % p * p ^ j
      = ∑ j ∈ Finset.range n, r / p ^ j % p * p ^ j :=
    Finset.sum_range_add_sum_Ico _ (by omega)
  have hzero : ∑ j ∈ Finset.Ico (e + 1) n, r / p ^ j % p * p ^ j = 0 :=
    Finset.sum_eq_zero (fun j hj => by
      obtain ⟨h1, h2⟩ := Finset.mem_Ico.mp hj
      rw [h j (by omega) h2, Nat.zero_mul])
  have hlt : ∑ j ∈ Finset.range (e + 1), r / p ^ j % p * p ^ j < p ^ (e + 1) :=
    sum_digits_lt hp (e + 1) (fun j => r / p ^ j % p) (fun j _ => digit_lt hp r j)
  omega

/-- A canonical digit list means the row index lies in `[p^e, 2·p^e)` for the
exponent `e` of its leading `1`. -/
theorem canonical_to_interval {p n r : Nat} (hp : 1 < p) (hr : r < p ^ n)
    (hc : is_canonical (digitsList p n r) = true) :
    ∃ e, e < n ∧ p ^ e ≤ r ∧ r < 2 * p ^ e := by
  obtain ⟨k, hk, h1, h0⟩ := (is_canonical_iff _).mp hc
  rw [digitsList_length] at hk
  rw [digitsList_getD hk] at h1
  have hhigh : ∀ e', n - 1 - k < e' → e' < n → r / p ^ e' % p = 0 := by
    intro e' hgt hlt
    have hj : n - 1 - e' < k := by omega
    have h2 := h0 (n - 1 - e') hj
    rw [digitsList_getD (by omega)] at h2
    have hee : n - 1 - (n - 1 - e') = e' := by omega
    rwa [hee] at h2
  have hlt1 : r < p ^ (n - 1 - k + 1) :=
    lt_pow_of_high_digits_zero (by omega) hr (by omega) hhigh
  have hpe : 0 < p ^ (n - 1 - k) := pow_pos (by omega) _
  have hdivlt : r / p ^ (n - 1 - k) < p := by
    rw [Nat.div_lt_iff_lt_mul hpe]
    calc r < p ^ (n - 1 - k + 1) := hlt1
      _ = p ^ (n - 1 - k) * p := pow_succ p _
      _ = p * p ^ (n - 1 - k) := mul_comm _ _
  have hdiv1 : r / p ^ (n - 1 - k) = 1 := by
    rw [← Nat.mod_eq_of_lt hdivlt]
    exact h1
  have hge : 1 * p ^ (n - 1 - k) ≤ r := (Nat.le_div_iff_mul_le hpe).mp (by omega)
  have hlt2 : r < 2 * p ^ (n - 1 - k) := (Nat.div_lt_iff_lt_mul hpe).mp (by omega)
  exact ⟨n - 1 - k, by omega, by omega, hlt2⟩

/-- The filter predicate of `colVectors` (canonical with at least two non-zero
entries) holds for a row index `r` exactly when `r` lies strictly inside one of
the intervals `(p^e, 2·p^e)`. -/
theorem colfilter_iff {p n r : Nat} (hp : 1 < p) (hr : r < p ^ n) :
    (is_canonical (digitsList p n r) && decide (1 < nonzero_count (digitsList p n r))) = true
      ↔ ∃ e, e < n ∧ p ^ e < r ∧ r < 2 * p ^ e := by
  rw [Bool.and_eq_true, decide_eq_true_iff]
  constructor
  · rintro ⟨hc, hnz⟩
    obtain ⟨e, he, hle, hlt⟩ := canonical_to_interval hp hr hc
    refine ⟨e, he, ?_, hlt⟩
    rcases Nat.lt_or_ge (p ^ e) r with h | h
    · exact h
    · exfalso
      have hre : r = p ^ e := by omega
      have hs0 : (0:Nat) < p ^ e := pow_pos (by omega) e
      have hsplit := digitsList_split hp he hs0
      rw [Nat.add_zero] at hsplit
      rw [hre, hsplit, nonzero_count_append, nonzero_count_replicate_zero,
        nonzero_count_cons] at hnz
      have hz : ¬ 0 < nonzero_count (digitsList p e 0) := by
        rw [nonzero_count_digits_pos hp hs0]
        omega
      simp at hnz
      omega
  · rintro ⟨e, he, hlt, hup⟩
    have hpe : 0 < p ^ e := pow_pos (by omega) e
    obtain ⟨s, hs1, hs2, hreq⟩ : ∃ s, 0 < s ∧ s < p ^ e ∧ r = p ^ e + s :=
      ⟨r - p ^ e, by omega, by omega, by omega⟩
    rw [hreq, digitsList_split hp he hs2]
    refine ⟨is_canonical_zeros_one _ _, ?_⟩
    rw [nonzero_count_append, nonzero_count_replicate_zero, nonzero_count_cons]
    have hposd := (nonzero_count_digits_pos hp hs2).mpr hs1
    simp
    omega

theorem filter_map_range_length {α : Type} (f : Nat → α) (P : α → Bool) :
    ∀ m, (((List.range m).map f).filter P).length
      = ((Finset.range m).filter (fun t => P (f t) = true)).card := by
  intro m
  induction m with
  | zero => simp
  | succ m ih =>
    rw [List.range_succ, List.map_append, List.filter_append, List.length_append,
      Finset.range_succ, Finset.filter_insert]
    by_cases hm : P (f m) = true
    · rw [if_pos hm, Finset.card_insert_of_not_mem (by simp)]
      simp only [List.map_cons, List.map_nil, List.filter_cons, hm, if_true]
      rw [ih]
      simp
    · rw [if_neg hm]
      simp only [List.map_cons, List.map_nil, List.filter_cons]
      rw [if_neg (by simp [hm]), ih]
      simp

theorem card_filter_shift (Q : Nat → Prop) [DecidablePred Q] (m : Nat) :
    ((Finset.range m).filter (fun t => Q (t + 1))).card
      = ((Finset.Ico 1 (m + 1)).filter Q).card := by
  refine Finset.card_nbij' (fun t => t + 1) (fun r => r - 1) ?_ ?_ ?_ ?_
  · intro a ha
    simp only [Finset.mem_filter, Finset.mem_range] at ha
    simp only [Finset.mem_filter, Finset.mem_Ico]
    exact ⟨⟨by omega, by omega⟩, ha.2⟩
  · intro a ha
    simp only [Finset.mem_filter, Finset.mem_Ico] at ha
    simp only [Finset.mem_filter, Finset.mem_range]
    refine ⟨by omega, ?_⟩
    have h : a - 1 + 1 = a := by omega
    rw [h]
    exact ha.2
  · intro a _
    simp
  · intro a ha
    simp only [Finset.mem_filter, Finset.mem_Ico] at ha
    show a - 1 + 1 = a
    omega

theorem geom_sum_pred_div {p : Nat} (hp : 1 < p) (n : Nat) :
    ∑ e ∈ Finset.range n, p ^ e = (p ^ n - 1) / (p - 1) := by
  obtain ⟨q, rfl⟩ : ∃ q, p = q + 1 := ⟨p - 1, by omega⟩
  have hq : 0 < q := by omega
  have key : ∀ m, (q + 1) ^ m = (∑ e ∈ Finset.range m, (q + 1) ^ e) * q + 1 := by
    intro m
    induction m with
    | zero => simp
    | succ m ih =>
      rw [Finset.sum_range_succ, pow_succ, ih]
      ring
  rw [key n, Nat.add_sub_cancel, Nat.succ_sub_one, Nat.mul_div_cancel _ hq]

theorem add_sum_pred {p : Nat} (hp : 1 < p) :
    ∀ n, n + ∑ e ∈ Finset.range n, (p ^ e - 1) = ∑ e ∈ Finset.range n, p ^ e := by
  intro n
  induction n with
  | zero => simp
  | succ n ih =>
    rw [Finset.sum_range_succ, Finset.sum_range_succ]
    have h1 : 0 < p ^ n := pow_pos (by omega) n
    omega

/-- The number of canonical column vectors of the generated `L(p^n)` array is
`(p^n - 1)/(p - 1)`: the `n` unit vectors plus, for each exponent `e < n`,
the `p^e - 1` canonical vectors whose leading `1` sits at exponent `e` and
which have a second non-zero entry. -/
theorem colVectors_length {p n : Nat} (hp : 1 < p) (hn : 0 < n) :
    (colVectors p n).length = (p ^ n - 1) / (p - 1) := by
  have hpn : 0 < p ^ n := pow_pos (by omega) n
  rw [colVectors, List.length_append, List.length_map, List.length_range,
    filter_map_range_length]
  have hone : p ^ n - 1 + 1 = p ^ n := by omega
  have hshift := card_filter_shift (fun r =>
    (is_canonical (digitsList p n r) && decide (1 < nonzero_count (digitsList p n r))) = true)
    (p ^ n - 1)
  rw [hone] at hshift
  rw [hshift]
  have hset : (Finset.Ico 1 (p ^ n)).filter (fun r =>
      (is_canonical (digitsList p n r) && decide (1 < nonzero_count (digitsList p n r))) = true)
      = (Finset.range n).biUnion (fun e => Finset.Ioo (p ^ e) (2 * p ^ e)) := by
    ext r
    simp only [Finset.mem_filter, Finset.mem_Ico, Finset.mem_biUnion, Finset.mem_range,
      Finset.mem_Ioo]
    constructor
    · rintro ⟨⟨h1, h2⟩, h3⟩
      exact (colfilter_iff hp h2).mp h3
    · rintro ⟨e, he, h4, h5⟩
      have hpe : 0 < p ^ e := pow_pos (by omega) e
      have h6 : 2 * p ^ e ≤ p * p ^ e := Nat.mul_le_mul_right _ (by omega)
      have h7 : p * p ^ e = p ^ (e + 1) := (pow_succ' p e).symm
      have h8 : p ^ (e + 1) ≤ p ^ n := Nat.pow_le_pow_right (by omega) (by omega)
      have hrn : r < p ^ n := by omega
      exact ⟨⟨by omega, hrn⟩, (colfilter_iff hp hrn).mpr ⟨e, he, h4, h5⟩⟩
  rw [hset, Finset.card_biUnion (fun e _ e' _ hne => by
    rw [Finset.disjoint_left]
    intro x hx hx'
    rw [Finset.mem_Ioo] at hx hx'
    rcases Nat.lt_or_ge e e' with h | h
    · have h6 : 2 * p ^ e ≤ p * p ^ e := Nat.mul_le_mul_right _ (by omega)
      have h7 : p * p ^ e = p ^ (e + 1) := (pow_succ' p e).symm
      have h8 : p ^ (e + 1) ≤ p ^ e' := Nat.pow_le_pow_right (by omega) (by omega)
      omega
    · have he' : e' < e := by omega
      have h6 : 2 * p ^ e' ≤ p * p ^ e' := Nat.mul_le_mul_right _ (by omega)
      have h7 : p * p ^ e' = p ^ (e' + 1) := (pow_succ' p e').symm
      have h8 : p ^ (e' + 1) ≤ p ^ e := Nat.pow_le_pow_right (by omega) (by omega)
      omega)]
  have hIoo : ∀ e ∈ Finset.range n, (Finset.Ioo (p ^ e) (2 * p ^ e)).card = p ^ e - 1 := by
    intro e _
    rw [Nat.card_Ioo]
    have hpe : 0 < p ^ e := pow_pos (by omega) e
    omega
  rw [Finset.sum_congr rfl hIoo, add_sum_pred hp n]
  exact geom_sum_pred_div hp n

/-! ## Casting the integer cells into `ZMod p` -/

theorem natCast_inj_of_lt {p a b : Nat} [NeZero p] (ha : a < p) (hb : b < p) :
    (a : ZMod p) = (b : ZMod p) ↔ a = b := by
  constructor
  · intro h
    have h1 := congrArg ZMod.val h
    rwa [ZMod.val_cast_of_lt ha, ZMod.val_cast_of_lt hb] at h1
  · intro h
    rw [h]

theorem mod_eq_iff_natCast {p x a : Nat} [NeZero p] (ha : a < p) :
    x % p = a ↔ (x : ZMod p) = (a : ZMod p) := by
  constructor
  · intro h
    rw [← h, ZMod.natCast_mod]
  · intro h
    have h1 := congrArg ZMod.val h
    rwa [ZMod.val_natCast, ZMod.val_cast_of_lt ha] at h1

theorem dotProd_eq_sum :
    ∀ (v x : List Nat), v.length = x.length →
      dotProd v x = ∑ j ∈ Finset.range v.length, v.getD j 0 * x.getD j 0 := by
  intro v
  induction v with
  | nil => intro x _; simp [dotProd]
  | cons a v ih =>
    intro x h
    match x with
    | [] => simp at h
    | b :: x' =>
      have h' : v.length = x'.length := by simpa using h
      rw [dotProd]
      simp only [List.zipWith_cons_cons, List.sum_cons]
      rw [show (a :: v).length = v.length + 1 from rfl, Finset.sum_range_succ']
      simp only [List.getD_cons_succ, List.getD_cons_zero]
      rw [← dotProd, ih x' h']
      ring

theorem cell_iff_cast {p n : Nat} [NeZero p] {v : List Nat} (hlen : v.length = n)
    (r a : Nat) (ha : a < p) :
    dotProd v (digitsList p n r) % p = a ↔
      (∑ i : Fin n, vecZ p n v i * digitZ p n r i) = (a : ZMod p) := by
  rw [mod_eq_iff_natCast ha]
  have hsum : dotProd v (digitsList p n r)
      = ∑ j ∈ Finset.range n, v.getD j 0 * (digitsList p n r).getD j 0 := by
    rw [dotProd_eq_sum v _ (by rw [hlen, digitsList_length]), hlen]
  have hcast : ((dotProd v (digitsList p n r) : Nat) : ZMod p)
      = ∑ i : Fin n, vecZ p n v i * digitZ p n r i := by
    rw [hsum]
    push_cast
    rw [← Fin.sum_univ_eq_sum_range
      (fun j => ((v.getD j 0 : Nat) : ZMod p) * (((digitsList p n r).getD j 0 : Nat) : ZMod p)) n]
    apply Finset.sum_congr rfl
    intro i _
    rw [vecZ, digitZ, digitsList_getD i.isLt]
  rw [hcast]

/-! ## Two distinct canonical columns are linearly independent -/

theorem pair_independent {p n : Nat} [Fact p.Prime] {v w : List Nat}
    (hvlen : v.length = n) (hwlen : w.length = n)
    (hvlt : ∀ j, v.getD j 0 < p) (hwlt : ∀ j, w.getD j 0 < p)
    (hvc : is_canonical v = true) (hwc : is_canonical w = true) (hne : v ≠ w) :
    LinearIndependent (ZMod p) ![vecZ p n v, vecZ p n w] := by
  have hp : 1 < p := (Fact.out : p.Prime).one_lt
  haveI : NeZero p := ⟨by omega⟩
  rw [LinearIndependent.pair_iff]
  intro s t hst
  obtain ⟨i₀, hi₀n, hi₀1, hi₀0⟩ := (is_canonical_iff v).mp hvc
  obtain ⟨j₀, hj₀n, hj₀1, hj₀0⟩ := (is_canonical_iff w).mp hwc
  rw [hvlen] at hi₀n
  rw [hwlen] at hj₀n
  have hpt : ∀ u : Fin n, s * vecZ p n v u + t * vecZ p n w u = 0 := by
    intro u
    have h1 := congrFun hst u
    simpa [smul_eq_mul] using h1
  have hv1 : vecZ p n v ⟨i₀, hi₀n⟩ = 1 := by
    rw [vecZ]
    simp only [hi₀1]
    exact Nat.cast_one
  have hw1 : vecZ p n w ⟨j₀, hj₀n⟩ = 1 := by
    rw [vecZ]
    simp only [hj₀1]
    exact Nat.cast_one
  by_cases ht : t = 0
  · subst ht
    have h1 := hpt ⟨i₀, hi₀n⟩
    rw [hv1] at h1
    simp only [mul_one, zero_mul, add_zero] at h1
    exact ⟨h1, rfl⟩
  · exfalso
    set lam : ZMod p := -s * t⁻¹ with hlam
    have hyx : ∀ u : Fin n, vecZ p n w u = lam * vecZ p n v u := by
      intro u
      have h2 : t * vecZ p n w u = -(s * vecZ p n v u) := by
        linear_combination hpt u
      calc vecZ p n w u = t⁻¹ * (t * vecZ p n w u) := by
            rw [← mul_assoc, inv_mul_cancel₀ ht, one_mul]
        _ = t⁻¹ * (-(s * vecZ p n v u)) := by rw [h2]
        _ = lam * vecZ p n v u := by rw [hlam]; ring
    have hlam0 : lam ≠ 0 := by
      intro h0
      have h1 := hyx ⟨j₀, hj₀n⟩
      rw [hw1, h0, zero_mul] at h1
      exact one_ne_zero h1
    have hnotlt1 : ¬(i₀ < j₀) := by
      intro hlt
      have hw0 : vecZ p n w ⟨i₀, hi₀n⟩ = 0 := by
        show ((w.getD i₀ 0 : Nat) : ZMod p) = 0
        rw [hj₀0 i₀ hlt]
        exact Nat.cast_zero
      rw [hyx ⟨i₀, hi₀n⟩, hv1, mul_one] at hw0
      exact hlam0 hw0
    have hnotlt2 : ¬(j₀ < i₀) := by
      intro hlt
      have hx0 : vecZ p n v ⟨j₀, hj₀n⟩ = 0 := by
        show ((v.getD j₀ 0 : Nat) : ZMod p) = 0
        rw [hi₀0 j₀ hlt]
        exact Nat.cast_zero
      have h1 := hyx ⟨j₀, hj₀n⟩
      rw [hw1, hx0, mul_zero] at h1
      exact one_ne_zero h1
    have hij : i₀ = j₀ := by omega
    have hlam1 : lam = 1 := by
      have h1 := hyx ⟨j₀, hj₀n⟩
      have hv1' : vecZ p n v ⟨j₀, hj₀n⟩ = 1 := by
        subst hij
        exact hv1
      rw [hw1, hv1', mul_one] at h1
      exact h1.symm
    apply hne
    apply list_eq_of_getD hvlen hwlen
    intro j hj
    have h1 := hyx ⟨j, hj⟩
    rw [hlam1, one_mul] at h1
    exact (natCast_inj_of_lt (hvlt j) (hwlt j)).mp h1.symm

/-! ## Orthogonality of the stored tables via their column functionals -/

theorem pair_count_core {p n : Nat} (hp : p.Prime) (hn : 2 ≤ n)
    {v₁ v₂ : List Nat} (hlen1 : v₁.length = n) (hlen2 : v₂.length = n)
    {a b : Nat} (ha : a < p) (hb : b < p)
    (hindep : LinearIndependent (ZMod p) ![vecZ p n v₁, vecZ p n v₂]) :
    ((Finset.range (p ^ n)).filter (fun r =>
        dotProd v₁ (digitsList p n r) % p = a ∧
        dotProd v₂ (digitsList p n r) % p = b)).card
      = p ^ (n - 2) := by
  haveI : Fact p.Prime := ⟨hp⟩
  have hp1 : 1 < p := hp.one_lt
  haveI : NeZero p := ⟨by omega⟩
  rw [Finset.filter_congr (fun r _ => by
    rw [cell_iff_cast hlen1 r a ha, cell_iff_cast hlen2 r b hb])]
  rw [card_digit_filter hp1 (by omega)
    (fun x => (∑ i : Fin n, vecZ p n v₁ i * x i) = (a : ZMod p) ∧
              (∑ i : Fin n, vecZ p n v₂ i * x i) = (b : ZMod p))]
  have hpred : ∀ x : Fin n → ZMod p,
      ((∑ i : Fin n, vecZ p n v₁ i * x i) = (a : ZMod p) ∧
       (∑ i : Fin n, vecZ p n v₂ i * x i) = (b : ZMod p)) ↔
      (∀ j : Fin 2, ∑ i : Fin n, (![vecZ p n v₁, vecZ p n v₂]) j i * x i
        = (![(a : ZMod p), (b : ZMod p)]) j) := by
    intro x
    rw [Fin.forall_fin_two]
    simp only [Matrix.cons_val_zero, Matrix.cons_val_one, Matrix.head_cons]
  rw [Finset.filter_congr (fun x _ => by rw [hpred x])]
  rw [fiber_card_eq ![vecZ p n v₁, vecZ p n v₂] hindep
    ![(a : ZMod p), (b : ZMod p)]]

/-- Two column vectors over `GF(p)` are linearly independent as soon as the
first is not the zero vector and the second is not a scalar multiple of the
first (the elementary two-vector criterion). -/
theorem pair_indep_elem {p n : Nat} [Fact p.Prime] {v w : List Nat}
    (hvlen : v.length = n) (hwlen : w.length = n)
    (hvlt : ∀ j, v.getD j 0 < p) (hwlt : ∀ j, w.getD j 0 < p)
    (hvnz : v ≠ List.replicate n 0)
    (hmult : ∀ lam, lam < p → w ≠ v.map (fun x => lam * x % p)) :
    LinearIndependent (ZMod p) ![vecZ p n v, vecZ p n w] := by
  have hp : 1 < p := (Fact.out : p.Prime).one_lt
  haveI : NeZero p := ⟨by omega⟩
  rw [LinearIndependent.pair_iff]
  intro s t hst
  have hpt : ∀ u : Fin n, s * vecZ p n v u + t * vecZ p n w u = 0 := by
    intro u
    have h1 := congrFun hst u
    simpa [smul_eq_mul] using h1
  have hvz : (∀ u : Fin n, vecZ p n v u = 0) → False := by
    intro hq
    apply hvnz
    refine list_eq_of_getD hvlen (by simp) ?_
    intro j hj
    have h2 : ((v.getD j 0 : Nat) : ZMod p) = ((0 : Nat) : ZMod p) := by
      rw [Nat.cast_zero]
      exact hq ⟨j, hj⟩
    rw [(natCast_inj_of_lt (hvlt j) (by omega)).mp h2, getD_replicate_zero]
  by_cases ht : t = 0
  · subst ht
    refine ⟨?_, rfl⟩
    by_contra hs
    apply hvz
    intro u
    have h1 := hpt u
    simp only [zero_mul, add_zero] at h1
    rcases mul_eq_zero.mp h1 with h | h
    · exact absurd h hs
    · exact h
  · exfalso
    set lam : ZMod p := -s * t⁻¹ with hlam
    have hyx : ∀ u : Fin n, vecZ p n w u = lam * vecZ p n v u := by
      intro u
      have h2 : t * vecZ p n w u = -(s * vecZ p n v u) := by
        linear_combination hpt u
      calc vecZ p n w u = t⁻¹ * (t * vecZ p n w u) := by
            rw [← mul_assoc, inv_mul_cancel₀ ht, one_mul]
        _ = t⁻¹ * (-(s * vecZ p n v u)) := by rw [h2]
        _ = lam * vecZ p n v u := by rw [hlam]; ring
    apply hmult lam.val (ZMod.val_lt lam)
    refine list_eq_of_getD hwlen (by rw [List.length_map, hvlen]) ?_
    intro j hj
    have hjv : j < v.length := by omega
    have hmap : (v.map (fun x => lam.val * x % p)).getD j 0
        = lam.val * v.getD j 0 % p := by
      rw [List.getD_eq_getElem?_getD, List.getElem?_map,
        List.getElem?_eq_getElem hjv]
      simp only [Option.map_some', Option.getD_some]
      rw [List.getD_eq_getElem?_getD, List.getElem?_eq_getElem hjv, Option.getD_some]
    rw [hmap]
    have h6 : ((w.getD j 0 : Nat) : ZMod p) = lam * ((v.getD j 0 : Nat) : ZMod p) :=
      hyx ⟨j, hj⟩
    have h5 : ((w.getD j 0 : Nat) : ZMod p) = ((lam.val * v.getD j 0 % p : Nat) : ZMod p) := by
      rw [ZMod.natCast_mod, Nat.cast_mul, h6]
      congr 1
      rw [ZMod.natCast_val, ZMod.cast_id]
    exact (natCast_inj_of_lt (hwlt j) (Nat.mod_lt _ (by omega))).mp h5

theorem getD_lt_of_mem_lt {p : Nat} (hp : 0 < p) {u : List Nat} (hu : ∀ x ∈ u, x < p) :
    ∀ j, u.getD j 0 < p := by
  intro j
  by_cases hj : j < u.length
  · rw [List.getD_eq_getElem?_getD, List.getElem?_eq_getElem hj, Option.getD_some]
    exact hu _ (List.getElem_mem _)
  · rw [List.getD_eq_default _ _ (by omega)]
    omega

/-! ## Orthogonality of the generated arrays -/

theorem generated_pair_count {p n : Nat} (hp : p.Prime) (hn : 2 ≤ n)
    {c1 c2 a b : Nat} (hc1 : c1 < (colVectors p n).length)
    (hc2 : c2 < (colVectors p n).length) (hne : c1 ≠ c2) (ha : a < p) (hb : b < p) :
    ((Finset.range (p ^ n)).filter (fun r =>
        dotProd ((colVectors p n).getD c1 []) (digitsList p n r) % p = a ∧
        dotProd ((colVectors p n).getD c2 []) (digitsList p n r) % p = b)).card
      = p ^ (n - 2) := by
  haveI : Fact p.Prime := ⟨hp⟩
  have hp1 : 1 < p := hp.one_lt
  haveI : NeZero p := ⟨by omega⟩
  set v₁ : List Nat := (colVectors p n).getD c1 [] with hv₁
  set v₂ : List Nat := (colVectors p n).getD c2 [] with hv₂
  have hget : ∀ c (hc : c < (colVectors p n).length),
      (colVectors p n).getD c [] = (colVectors p n)[c] := by
    intro c hc
    rw [List.getD_eq_getElem?_getD, List.getElem?_eq_getElem hc, Option.getD_some]
  have hmem1 : v₁ ∈ colVectors p n := by
    rw [hv₁, hget c1 hc1]
    exact List.getElem_mem _
  have hmem2 : v₂ ∈ colVectors p n := by
    rw [hv₂, hget c2 hc2]
    exact List.getElem_mem _
  obtain ⟨hlen1, hlt1, hcan1⟩ := colVectors_spec hp1 v₁ hmem1
  obtain ⟨hlen2, hlt2, hcan2⟩ := colVectors_spec hp1 v₂ hmem2
  have hvne : v₁ ≠ v₂ := by
    rw [hv₁, hv₂, hget c1 hc1, hget c2 hc2]
    intro h
    exact hne (((colVectors_nodup hp1).getElem_inj_iff).mp h)
  have hindep := pair_independent hlen1 hlen2 hlt1 hlt2 hcan1 hcan2 hvne
  exact pair_count_core hp hn hlen1 hlen2 ha hb hindep

/-! ## Row-major cell access into the generated data -/

theorem flatten_getD {α : Type} (d : α) :
    ∀ (rows : List (List α)) (C r c : Nat), (∀ l ∈ rows, l.length = C) →
      r < rows.length → c < C →
      rows.flatten.getD (r * C + c) d = (rows.getD r []).getD c d := by
  intro rows
  induction rows with
  | nil => intro C r c _ hr _; simp at hr
  | cons l rest ih =>
    intro C r c hlen hr hc
    match r with
    | 0 =>
      simp only [List.flatten_cons, Nat.zero_mul, Nat.zero_add, List.getD_cons_zero]
      exact List.getD_append _ _ _ _ (by rw [hlen l (by simp)]; exact hc)
    | r + 1 =>
      simp only [List.flatten_cons, List.getD_cons_succ]
      have hlenl : l.length = C := hlen l (by simp)
      have hidx : (r + 1) * C + c = l.length + (r * C + c) := by rw [hlenl]; ring
      rw [hidx, List.getD_append_right _ _ _ _ (by omega)]
      have hsub : l.length + (r * C + c) - l.length = r * C + c := by omega
      rw [hsub]
      exact ih C r c (fun l' hl' => hlen l' (by simp [hl'])) (by simpa using hr) hc

theorem generate_power_oa_cell {p n r c : Nat} (hr : r < p ^ n)
    (hc : c < (colVectors p n).length) :
    (generate_power_oa p n).getD (r * (colVectors p n).length + c) 0
      = dotProd ((colVectors p n).getD c []) (digitsList p n r) % p := by
  rw [generate_power_oa]
  rw [flatten_getD 0 _ (colVectors p n).length r c
    (fun l hl => by
      obtain ⟨r', _, rfl⟩ := List.mem_map.mp hl
      simp)
    (by simpa using hr) hc]
  rw [getD_map_range
    (fun r => (colVectors p n).map (fun v => dotProd v (digitsList p n r) % p)) [] hr]
  have hgd : (colVectors p n).getD c [] = (colVectors p n)[c] := by
    rw [List.getD_eq_getElem?_getD, List.getElem?_eq_getElem hc, Option.getD_some]
  rw [hgd, List.getD_eq_getElem?_getD, List.getElem?_map, List.getElem?_eq_getElem hc]
  rfl

theorem genArray_pair_count (s : String) {p n : Nat} (hp : p.Prime) (hn : 2 ≤ n) :
    ∀ c1, c1 < (genArray s p n).cols → ∀ c2, c2 < (genArray s p n).cols → c1 ≠ c2 →
      ∀ a, a < (genArray s p n).levels → ∀ b, b < (genArray s p n).levels →
      pairCount (genArray s p n) c1 c2 a b
        = (genArray s p n).rows / (genArray s p n).levels ^ 2 := by
  have hlen : (colVectors p n).length = (p ^ n - 1) / (p - 1) :=
    colVectors_length hp.one_lt (by omega)
  intro c1 hc1 c2 hc2 hne a ha b hb
  have hc1' : c1 < (colVectors p n).length := by rw [hlen]; exact hc1
  have hc2' : c2 < (colVectors p n).length := by rw [hlen]; exact hc2
  have hcells : ∀ r, r < p ^ n → ∀ cc, cc < (colVectors p n).length →
      oaCell (genArray s p n) r cc
        = dotProd ((colVectors p n).getD cc []) (digitsList p n r) % p := by
    intro r hr cc hcc
    show (generate_power_oa p n).getD (r * ((p ^ n - 1) / (p - 1)) + cc) 0 = _
    rw [← hlen]
    exact generate_power_oa_cell hr hcc
  show ((Finset.range (p ^ n)).filter (fun r =>
      oaCell (genArray s p n) r c1 = a ∧ oaCell (genArray s p n) r c2 = b)).card
    = p ^ n / p ^ 2
  rw [Finset.filter_congr (fun r hr => by
    rw [hcells r (Finset.mem_range.mp hr) c1 hc1', hcells r (Finset.mem_range.mp hr) c2 hc2'])]
  rw [generated_pair_count hp hn hc1' hc2' hne ha hb]
  rw [Nat.pow_div hn hp.pos]

/-- Orthogonality of a stored table whose data is row-major generated by a
list of column functionals over the base-`p` digits of the row index, with
pairwise independence given by the elementary criterion. -/
theorem stored_oa_pair_count (p n : Nat) (hp : p.Prime) (hn : 2 ≤ n)
    (cols : List (List Nat)) (A : OrthogonalArray)
    (hrows : A.rows = p ^ n) (hcols : A.cols = cols.length) (hlev : A.levels = p)
    (hdata : A.data = ((List.range (p ^ n)).map
        (fun r => cols.map (fun v => dotProd v (digitsList p n r) % p))).flatten)
    (hmem : ∀ v ∈ cols, v.length = n ∧ ∀ x ∈ v, x < p)
    (hnz : ∀ c, c < cols.length → cols.getD c [] ≠ List.replicate n 0)
    (hnm : ∀ c1, c1 < cols.length → ∀ c2, c2 < cols.length → c1 ≠ c2 →
        ∀ lam, lam < p → cols.getD c2 [] ≠ (cols.getD c1 []).map (fun x => lam * x % p)) :
    ∀ c1, c1 < A.cols → ∀ c2, c2 < A.cols → c1 ≠ c2 →
      ∀ a, a < A.levels → ∀ b, b < A.levels →
      pairCount A c1 c2 a b = A.rows / A.levels ^ 2 := by
  haveI : Fact p.Prime := ⟨hp⟩
  have hp1 : 1 < p := hp.one_lt
  haveI : NeZero p := ⟨by omega⟩
  intro c1 hc1 c2 hc2 hne a ha b hb
  rw [hcols] at hc1 hc2
  rw [hlev] at ha hb
  have hcell : ∀ r, r < p ^ n → ∀ cc, cc < cols.length →
      oaCell A r cc = dotProd (cols.getD cc []) (digitsList p n r) % p := by
    intro r hr cc hcc
    rw [oaCell, hdata, hcols]
    rw [flatten_getD 0 _ cols.length r cc
      (fun l hl => by
        obtain ⟨r', _, rfl⟩ := List.mem_map.mp hl
        simp)
      (by simpa using hr) hcc]
    rw [getD_map_range (fun r => cols.map (fun v => dotProd v (digitsList p n r) % p)) [] hr]
    have hgd : cols.getD cc [] = cols[cc] := by
      rw [List.getD_eq_getElem?_getD, List.getElem?_eq_getElem hcc, Option.getD_some]
    rw [hgd, List.getD_eq_getElem?_getD, List.getElem?_map, List.getElem?_eq_getElem hcc]
    rfl
  have hget : ∀ c, c < cols.length → cols.getD c [] ∈ cols := by
    intro c hc
    rw [List.getD_eq_getElem?_getD, List.getElem?_eq_getElem hc, Option.getD_some]
    exact List.getElem_mem _
  have hspec1 := hmem _ (hget c1 hc1)
  have hspec2 := hmem _ (hget c2 hc2)
  have hlt : ∀ c, c < cols.length → ∀ j, (cols.getD c []).getD j 0 < p := by
    intro c hc
    exact getD_lt_of_mem_lt (by omega) (hmem _ (hget c hc)).2
  have hindep := pair_indep_elem hspec1.1 hspec2.1 (hlt c1 hc1) (hlt c2 hc2)
    (hnz c1 hc1) (hnm c1 hc1 c2 hc2 hne)
  show ((Finset.range A.rows).filter
      (fun r => oaCell A r c1 = a ∧ oaCell A r c2 = b)).card = A.rows / A.levels ^ 2
  rw [hrows, hlev]
  rw [Finset.filter_congr (fun r hr => by
    rw [hcell r (Finset.mem_range.mp hr) c1 hc1, hcell r (Finset.mem_range.mp hr) c2 hc2])]
  rw [pair_count_core hp hn hspec1.1 hspec2.1 ha hb hindep]
  rw [Nat.pow_div hn hp.pos]

/-! ## Claim C1: orthogonality of every catalog array -/

/-- C1: for every orthogonal array A in the catalog (the four stored
tables L4, L8, L9, L16 and every generated L(p^n)), for every pair of
distinct column indices and every ordered pair of values (a, b) with
0 ≤ a, b < A.levels, the number of rows r with A[r][c1] = a and
A[r][c2] = b equals A.rows / A.levels². -/
theorem C1_oa_orthogonality :
    ∀ A ∈ all_arrays, ∀ c1, c1 < A.cols → ∀ c2, c2 < A.cols → c1 ≠ c2 →
      ∀ a, a < A.levels → ∀ b, b < A.levels →
      pairCount A c1 c2 a b = A.rows / A.levels ^ 2 := by
  intro A hA
  simp only [all_arrays, List.mem_cons, List.not_mem_nil, or_false] at hA
  rcases hA with rfl | rfl | rfl | rfl | rfl | rfl | rfl | rfl | rfl | rfl | rfl | rfl | rfl | rfl | rfl | rfl | rfl | rfl | rfl
  · exact stored_oa_pair_count 2 2 (by norm_num) (by norm_num) L4cols
      ⟨"L4", 4, 3, 2, L4_data⟩ (by decide) (by decide) (by decide) (by decide)
      (by decide) (by decide) (by decide)
  · exact stored_oa_pair_count 2 3 (by norm_num) (by norm_num) L8cols
      ⟨"L8", 8, 7, 2, L8_data⟩ (by decide) (by decide) (by decide) (by decide)
      (by decide) (by decide) (by decide)
  · exact stored_oa_pair_count 3 2 (by norm_num) (by norm_num) L9cols
      ⟨"L9", 9, 4, 3, L9_data⟩ (by decide) (by decide) (by decide) (by decide)
      (by decide) (by decide) (by decide)
  · exact stored_oa_pair_count 2 4 (by norm_num) (by norm_num) L16cols
      ⟨"L16", 16, 15, 2, L16_data⟩ (by decide) (by decide) (by decide) (by decide)
      (by decide) (by decide) (by decide)
  · exact genArray_pair_count "L32" (by norm_num) (by norm_num)
  · exact genArray_pair_count "L64" (by norm_num) (by norm_num)
  · exact genArray_pair_count "L128" (by norm_num) (by norm_num)
  · exact genArray_pair_count "L256" (by norm_num) (by norm_num)
  · exact genArray_pair_count "L512" (by norm_num) (by norm_num)
  · exact genArray_pair_count "L1024" (by norm_num) (by norm_num)
  · exact genArray_pair_count "L27" (by norm_num) (by norm_num)
  · exact genArray_pair_count "L81" (by norm_num) (by norm_num)
  · exact genArray_pair_count "L243" (by norm_num) (by norm_num)
  · exact genArray_pair_count "L729" (by norm_num) (by norm_num)
  · exact genArray_pair_count "L2187" (by norm_num) (by norm_num)
  · exact genArray_pair_count "L25" (by norm_num) (by norm_num)
  · exact genArray_pair_count "L125" (by norm_num) (by norm_num)
  · exact genArray_pair_count "L625" (by norm_num) (by norm_num)
  · exact genArray_pair_count "L3125" (by norm_num) (by norm_num)

/-- Witness for C1: the stored L9 array, columns 0 and 1, value pair
(1, 2): the pair occurs in 9 / 3² = 1 row. -/
theorem C1_oa_orthogonality_witness :
    pairCount ⟨"L9", 9, 4, 3, L9_data⟩ 0 1 1 2 = 9 / 3 ^ 2 :=
  C1_oa_orthogonality ⟨"L9", 9, 4, 3, L9_data⟩
    (by unfold all_arrays
        exact List.mem_cons_of_mem _ (List.mem_cons_of_mem _ (List.mem_cons_self _ _)))
    0 (by decide) 1 (by decide) (by decide) 1 (by decide) 2 (by decide)

/-! ## From `generate_experiments` back to rows and cells -/

theorem generate_ok_eq {d : ExperimentDef} {A : OrthogonalArray}
    {runs : List ExperimentRun} (hne : d.array_type.length ≠ 0)
    (hget : get_array d.array_type = some A)
    (hgen : generate_experiments d = .ok runs) :
    runs = make_runs d A ∧ total_columns_needed d A.levels ≤ A.cols := by
  rw [generate_experiments] at hgen
  simp only [if_neg hne, hget] at hgen
  by_cases hc : check_array_compatibility d A
  · rw [if_pos hc] at hgen
    refine ⟨(Except.ok.inj hgen).symm, ?_⟩
    rw [check_array_compatibility] at hc
    exact of_decide_eq_true hc
  · rw [if_neg hc] at hgen
    exact absurd hgen (by simp)

theorem make_runs_length (d : ExperimentDef) (A : OrthogonalArray) :
    (make_runs d A).length = A.rows := by
  simp [make_runs]

theorem make_runs_values {d : ExperimentDef} {A : OrthogonalArray} {r i : Nat}
    (hr : r < A.rows) (hi : i < d.factors.length) :
    ((make_runs d A).getD r runDefault).values.getD i ""
      = decode_value A (d.factors.getD i fDefault) r (col_start d A.levels i)
          (columns_needed_for_factor (d.factors.getD i fDefault).level_count A.levels) := by
  rw [make_runs, getD_map_range _ runDefault hr]
  have hlen : (d.factors.enum.map (fun p =>
      decode_value A p.2 r (col_start d A.levels p.1)
        (columns_needed_for_factor p.2.level_count A.levels))).length
      = d.factors.length := by simp
  have hi' : i < d.factors.enum.length := by
    rw [List.enum_length]
    exact hi
  rw [List.getD_eq_getElem?_getD, List.getElem?_map, List.getElem?_enum,
    List.getElem?_eq_getElem hi]
  have hgd : d.factors.getD i fDefault = d.factors[i] := by
    rw [List.getD_eq_getElem?_getD, List.getElem?_eq_getElem hi, Option.getD_some]
  rw [hgd]
  rfl

/-! ## The paired-column accumulation as a big-endian digit sum -/

theorem foldl_mul_const (base : Nat) :
    ∀ (m a : Nat), (List.range m).foldl (fun acc _ => acc * base) a = a * base ^ m := by
  intro m
  induction m with
  | zero => intro a; simp
  | succ m ih =>
    intro a
    rw [List.range_succ, List.foldl_append, ih a]
    simp [pow_succ, Nat.mul_assoc]

theorem pair_multiplier_eq (base k c : Nat) :
    pair_multiplier base k c = base ^ (k - 1 - c) := by
  rw [pair_multiplier, foldl_mul_const base (k - (c + 1)) 1, Nat.one_mul]
  congr 1
  omega

theorem foldl_add_eq_sum (f : Nat → Nat) :
    ∀ (k a : Nat), (List.range k).foldl (fun acc c => acc + f c) a
      = a + ∑ c ∈ Finset.range k, f c := by
  intro k
  induction k with
  | zero => intro a; simp
  | succ k ih =>
    intro a
    rw [List.range_succ, List.foldl_append, ih a, Finset.sum_range_succ]
    simp [Nat.add_assoc]

theorem factor_level_index_eq_sum (A : OrthogonalArray) (r s k : Nat) :
    factor_level_index A r s k
      = ∑ c ∈ Finset.range k, oaCell A r (s + c) * A.levels ^ (k - 1 - c) := by
  rw [factor_level_index]
  by_cases hk : k = 1
  · subst hk
    simp [Finset.sum_range_one]
  · rw [if_neg hk]
    rw [show (fun (acc c : Nat) =>
        acc + oaCell A r (s + c) * pair_multiplier A.levels k c)
        = fun acc c => acc + oaCell A r (s + c) * A.levels ^ (k - 1 - c) from by
      funext acc c
      rw [pair_multiplier_eq]]
    rw [foldl_add_eq_sum (fun c => oaCell A r (s + c) * A.levels ^ (k - 1 - c)) k 0,
      Nat.zero_add]

/-! ## Column layout facts -/

/-- C5: for every run and every factor consuming k ≥ 2 consecutive OA
columns, the emitted level value is the factor's value at index
`(Σ_c cell(r, start+c) · levels^(k-1-c)) mod level_count`: the cells are
combined big-endian and wrapped modulo the level count. -/
theorem C5_paired_column_decoding (d : ExperimentDef) (A : OrthogonalArray)
    (runs : List ExperimentRun) (hne : d.array_type.length ≠ 0)
    (hget : get_array d.array_type = some A)
    (hgen : generate_experiments d = .ok runs)
    (i : Nat) (hi : i < d.factors.length) (r : Nat) (hr : r < A.rows)
    (hk2 : 2 ≤ columns_needed_for_factor (d.factors.getD i fDefault).level_count A.levels) :
    (runs.getD r runDefault).values.getD i ""
      = (d.factors.getD i fDefault).values.getD
          ((∑ c ∈ Finset.range
              (columns_needed_for_factor (d.factors.getD i fDefault).level_count A.levels),
            oaCell A r (col_start d A.levels i + c)
              * A.levels ^
                (columns_needed_for_factor (d.factors.getD i fDefault).level_count A.levels
                  - 1 - c))
            % (d.factors.getD i fDefault).level_count) "" := by
  obtain ⟨hruns, _⟩ := generate_ok_eq hne hget hgen
  subst hruns
  rw [make_runs_values hr hi, decode_value, factor_level_index_eq_sum]

/-- Witness for C5: the second 9-level factor of `twoNineLevelDef` on L9,
run index 4. -/
theorem C5_paired_column_decoding_witness :
    (twoNineLevelRuns.getD 4 runDefault).values.getD 1 ""
      = (twoNineLevelDef.factors.getD 1 fDefault).values.getD
          ((∑ c ∈ Finset.range
              (columns_needed_for_factor
                (twoNineLevelDef.factors.getD 1 fDefault).level_count
                (⟨"L9", 9, 4, 3, L9_data⟩ : OrthogonalArray).levels),
            oaCell ⟨"L9", 9, 4, 3, L9_data⟩ 4
                (col_start twoNineLevelDef
                  (⟨"L9", 9, 4, 3, L9_data⟩ : OrthogonalArray).levels 1 + c)
              * (⟨"L9", 9, 4, 3, L9_data⟩ : OrthogonalArray).levels ^
                (columns_needed_for_factor
                  (twoNineLevelDef.factors.getD 1 fDefault).level_count
                  (⟨"L9", 9, 4, 3, L9_data⟩ : OrthogonalArray).levels - 1 - c))
            % (twoNineLevelDef.factors.getD 1 fDefault).level_count) "" :=
  C5_paired_column_decoding twoNineLevelDef ⟨"L9", 9, 4, 3, L9_data⟩
    twoNineLevelRuns (by decide) (by rfl) (by rfl)
    1 (by decide) 4 (by decide) (by decide)

/-! ## Claim C4: auto-selection for five 3-level factors -/

/-- C4 counterexample: the selector does not return "L16" for five
3-level factors with no explicit array. -/
theorem C4_counterexample :
    ¬ (suggest_optimal_array fiveThreeLevelDef = some "L16") := by
  decide

/-- C4 (amended): for five 3-level factors with no explicit array the
selector returns "L27": the exact base-3 match L27 (13 columns for 5
needed, margin 160% in the good band) takes priority over every base-2
candidate, so the smallest-R rule is never reached. -/
theorem C4_amended_selector_returns_L27 :
    suggest_optimal_array fiveThreeLevelDef = some "L27" := by
  decide

/-! ## Claim C7: column overflow for three 9-level factors on L9 -/

/-- C7: three 9-level factors need 3 · 2 = 6 base-3 columns, L9 has 4;
`generate_experiments` with explicit array L9 reports a column overflow
carrying the array name, the 4 available columns and the 6 needed
columns, and produces no runs. -/
theorem C7_column_overflow_L9 :
    generate_experiments threeNineLevelDef
      = .error (.columnOverflow "L9" 4 6) ∧
    columns_needed_for_factor 9 3 = 2 ∧
    total_columns_needed threeNineLevelDef 3 = 6 := by
  refine ⟨by rfl, by decide, by decide⟩

/-! ## Claim C3: the analyzer's level mapping on the L9 scenario -/

/-- C3 (code bug): with factors A = {a1,a2,a3}, B = {b1,b2,b3} on L9 and
responses 10/20/30 keyed by A's actual level in the generated design,
`calculate_main_effects` groups responses by the fake mapping
`(run_id - 1) % level_count` instead of the run's level value, producing
level means [20, 20, 20] and range 0 for factor A (the claim, and the
repository's own test `analyzer_main_effects_l9`, require [10, 20, 30]
and range 20). -/
theorem C3_fake_level_mapping :
    samplesC3 = [(1, 10), (2, 10), (3, 10), (4, 20), (5, 20), (6, 20),
                 (7, 30), (8, 30), (9, 30)] ∧
    (calculate_main_effects resultsC3).map
        (fun e => (e.factor_name, e.level_means, e.range))
      = [("A", [20, 20, 20], 0), ("B", [20, 20, 20], 0)] := by
  have hsamples : samplesC3 = [(1, 10), (2, 10), (3, 10), (4, 20), (5, 20), (6, 20),
      (7, 30), (8, 30), (9, 30)] := by decide
  refine ⟨hsamples, ?_⟩
  have h3 : List.range 3 = [0, 1, 2] := by decide
  have hr : (List.replicate 3 (0 : ℚ)) = [0, 0, 0] := by decide
  have hrn : (List.replicate 3 (0 : Nat)) = [0, 0, 0] := by decide
  norm_num [calculate_main_effects, resultsC3, dC3, hsamples, calc_effect, accum_level,
    Factor.level_count, h3, hr, hrn]

/-! ## Claim C6: the recommendation string -/

/-- C6 (code bug): `recommend_optimal_levels` scans for the best level
index (argmax for higher-is-better, argmin otherwise, strict comparison
so the lowest index wins ties) but then discards it and emits
"<factor>=best" for every factor instead of
"<factor>=level_<1-based-index>". -/
theorem C6_recommend_emits_best :
    recommend_optimal_levels
        [{ factor_name := "A", level_means := [10, 20, 30], range := 20 },
         { factor_name := "B", level_means := [100, 50, 25], range := 75 }]
      = "Optimal configuration: A=best, B=best" ∧
    best_level_idx { factor_name := "A", level_means := [10, 20, 30], range := 20 } true = 2 ∧
    best_level_idx { factor_name := "B", level_means := [100, 50, 25], range := 75 } true = 0 ∧
    best_level_idx { factor_name := "B", level_means := [100, 50, 25], range := 75 } false = 2 := by
  refine ⟨by rfl, ?_, ?_, ?_⟩ <;> norm_num [best_level_idx, bestGo]

/-! ## Claim C8: determinism of the run generator -/

/-- C8: `generate_experiments` is a pure function of the definition: two
calls on the same definition yield the same success-or-failure outcome
and, on success, runs of the same length with identical run ids, factor
names and level values. (In the C source this holds because the function
reads only the definition and the catalog, which is immutable after its
idempotent lazy initialization.) -/
theorem C8_generate_deterministic (d : ExperimentDef) :
    generate_experiments d = generate_experiments d ∧
    ∀ runs1 runs2, generate_experiments d = .ok runs1 →
      generate_experiments d = .ok runs2 →
      runs1.length = runs2.length ∧
      runs1.map (fun run => run.run_id) = runs2.map (fun run => run.run_id) ∧
      runs1.map (fun run => run.factor_names) = runs2.map (fun run => run.factor_names) ∧
      runs1.map (fun run => run.values) = runs2.map (fun run => run.values) := by
  refine ⟨rfl, ?_⟩
  intro runs1 runs2 h1 h2
  rw [h1] at h2
  obtain rfl : runs1 = runs2 := Except.ok.inj h2
  exact ⟨rfl, rfl, rfl, rfl⟩

/-- Witness for C8 at the concrete L9 scenario definition. -/
theorem C8_generate_deterministic_witness :
    runsC3.map (fun run => run.values) = runsC3.map (fun run => run.values) :=
  ((C8_generate_deterministic dC3).2 runsC3 runsC3 (by rfl) (by rfl)).2.2.2

/-! ## Claim C9: first-match response lookup -/

theorem build_result_set_samples (d : ExperimentDef) (m : String)
    (samples : List (Nat × ℚ)) :
    (build_result_set d m samples).samples = samples := by
  rw [build_result_set]
  have h : ∀ (l : List (Nat × ℚ)) (rs : ResultSet),
      (l.foldl (fun rs sample => add_result rs sample.1 sample.2) rs).samples
        = rs.samples ++ l := by
    intro l
    induction l with
    | nil => intro rs; simp
    | cons x xs ih =>
      intro rs
      rw [List.foldl_cons, ih]
      simp [add_result]
  rw [h]
  rfl

theorem lookup_response_spec :
    ∀ (samples : List (Nat × ℚ)) (run_id : Nat),
      (∀ i, i < samples.length → (samples.getD i (0, 0)).1 = run_id →
        (∀ j, j < i → (samples.getD j (0, 0)).1 ≠ run_id) →
        lookup_response samples run_id = (samples.getD i (0, 0)).2) ∧
      ((∀ i, i < samples.length → (samples.getD i (0, 0)).1 ≠ run_id) →
        lookup_response samples run_id = 0) := by
  intro samples
  induction samples with
  | nil =>
    intro run_id
    exact ⟨fun i hi => absurd hi (by simp), fun _ => rfl⟩
  | cons x xs ih =>
    intro run_id
    constructor
    · intro i hi hmatch hbefore
      match i with
      | 0 =>
        rw [lookup_response, if_pos (by simpa using hmatch)]
        rfl
      | i + 1 =>
        have hx : x.1 ≠ run_id := by simpa using hbefore 0 (by omega)
        rw [lookup_response, if_neg hx]
        have h1 := (ih run_id).1 i (by simpa using hi) (by simpa using hmatch)
          (fun j hj => by simpa using hbefore (j + 1) (by omega))
        simpa using h1
    · intro hnone
      have hx : x.1 ≠ run_id := by simpa using hnone 0 (by simp)
      rw [lookup_response, if_neg hx]
      exact (ih run_id).2 (fun i hi => by simpa using hnone (i + 1) (by simpa using hi))

/-- C9: on a result set built by successive `add_result` calls,
`get_response_for_run` returns the response of the earliest-appended
sample whose run id matches (so with duplicate run ids the first
appended wins), and returns 0.0 when no stored sample has that run id. -/
theorem C9_first_match_lookup (d : ExperimentDef) (m : String)
    (samples : List (Nat × ℚ)) (run_id : Nat) :
    (∀ i, i < samples.length → (samples.getD i (0, 0)).1 = run_id →
      (∀ j, j < i → (samples.getD j (0, 0)).1 ≠ run_id) →
      get_response_for_run (build_result_set d m samples) run_id
        = (samples.getD i (0, 0)).2) ∧
    ((∀ i, i < samples.length → (samples.getD i (0, 0)).1 ≠ run_id) →
      get_response_for_run (build_result_set d m samples) run_id = 0) := by
  rw [get_response_for_run, build_result_set_samples]
  exact lookup_response_spec samples run_id

/-- Witness for C9: duplicate run id 1 — the first appended response 5
wins; and a missing run id yields 0. -/
theorem C9_first_match_lookup_witness :
    get_response_for_run (build_result_set dC3 "m" [(1, 5), (1, 7), (2, 3)]) 1 = 5 ∧
    get_response_for_run (build_result_set dC3 "m" [(1, 5), (1, 7), (2, 3)]) 9 = 0 :=
  ⟨by
    have h := (C9_first_match_lookup dC3 "m" [(1, 5), (1, 7), (2, 3)] 1).1
      0 (by decide) (by decide) (by omega)
    simpa using h,
   (C9_first_match_lookup dC3 "m" [(1, 5), (1, 7), (2, 3)] 9).2 (by decide)⟩

/-! ## Claim C10: validation accepts single-level factors -/

/-- C10: `validate_experiment_def` returns true for every definition with
between 1 and 256 factors whose factors all have a non-empty name and
between 1 and 27 levels — in particular a factor with exactly one level
is accepted — and `taguchi_add_factor` likewise accepts a single-level
factor (subject only to its length checks). -/
theorem C10_validation_accepts_single_level :
    (∀ d : ExperimentDef, 1 ≤ d.factors.length → d.factors.length ≤ MAX_FACTORS →
      (∀ f ∈ d.factors, f.name.length ≠ 0 ∧ 1 ≤ f.level_count ∧ f.level_count ≤ MAX_LEVELS) →
      validate_experiment_def d = true) ∧
    (∀ (d : ExperimentDef) (name : String) (levels : List String),
      levels.length = 1 → d.factors.length < MAX_FACTORS →
      name.length < MAX_FACTOR_NAME →
      (∀ v ∈ levels, v.length < MAX_LEVEL_VALUE) →
      (taguchi_add_factor d name levels).isSome = true) := by
  constructor
  · intro d h1 h2 h3
    rw [validate_experiment_def, if_neg (by omega)]
    rw [List.all_eq_true]
    intro f hf
    obtain ⟨hn, hl1, hl2⟩ := h3 f hf
    rw [Bool.and_eq_true, decide_eq_true_iff, decide_eq_true_iff]
    exact ⟨hn, by omega⟩
  · intro d name levels h1 h2 h3 h4
    rw [taguchi_add_factor]
    rw [if_neg (by rw [MAX_LEVELS]; omega)]
    rw [if_neg (Nat.not_le.mpr h2)]
    rw [if_neg (Nat.not_le.mpr h3)]
    rw [if_neg (by
      rw [List.any_eq_true]
      rintro ⟨v, hv, hdec⟩
      rw [decide_eq_true_iff] at hdec
      exact absurd hdec (Nat.not_le.mpr (h4 v hv)))]
    rfl

/-- Witness for C10: a definition holding one factor with a single level
validates, and `taguchi_add_factor` accepts a single-level factor. -/
theorem C10_validation_accepts_single_level_witness :
    validate_experiment_def soloFactorDef = true ∧
    (taguchi_add_factor { factors := [], array_type := "" } "solo" ["only"]).isSome = true :=
  ⟨C10_validation_accepts_single_level.1 soloFactorDef (by decide) (by decide)
      (by decide),
   C10_validation_accepts_single_level.2 { factors := [], array_type := "" }
      "solo" ["only"] (by decide) (by decide) (by decide) (by decide)⟩

end Taguchi
